import Mathlib

/-!
Shallow embedding of the ClassTable repository's course-time parsing,
week-range merging, schedule generation and conflict detection logic
(src/utils/courseTimeParser.ts and src/utils/schedulingAlgorithm.ts),
together with proofs about the claims of the specification.

Conventions of the embedding:
* TypeScript `number` values occurring here are week numbers, period
  numbers and weekday numbers, all produced by `parseInt` on digit
  strings or by bounded form input; they are modelled as `Nat`.
* `undefined`/optional fields are modelled with `Option`.
* JavaScript truthiness is modelled explicitly where it matters:
  the number `0` and the empty string are falsy (`jsTruthyNat`,
  `jsOrString`).
* The field `end` of the TypeScript interface `WeekRange` is named
  `stop` here because `end` is a Lean keyword.
-/

/-- WeekRange from src/types (App.tsx): inclusive interval of weeks.
The TypeScript field `end` is called `stop` here. -/
structure WeekRange where
  start : Nat
  stop : Nat
deriving DecidableEq, Repr

/-- TimeSlot from src/types: a named period of the day. -/
structure TimeSlot where
  id : String
  name : String
  startTime : String
  endTime : String
  order : Nat
deriving DecidableEq, Repr

/-- FixedTimeSlot from src/types: a weekly commitment of a course. -/
structure FixedTimeSlot where
  dayOfWeek : Nat
  timeSlotIds : List String
  weeks : Option (List WeekRange)
  location : Option String
deriving DecidableEq, Repr

/-- Course from src/types (fields used by the scheduling algorithm). -/
structure Course where
  id : String
  name : String
  teacherId : String
  location : Option String
  fixedTimeSlots : List FixedTimeSlot
deriving DecidableEq, Repr

/-- ScheduleItem from src/types: one (course, weekday, period) entry. -/
structure ScheduleItem where
  id : String
  courseId : String
  teacherId : String
  timeSlotId : String
  dayOfWeek : Nat
  weeks : Option (List WeekRange)
  location : Option String
deriving DecidableEq, Repr

/-- Conflict from src/types; `type` is always "time" in this code. -/
structure Conflict where
  type : String
  message : String
  items : List ScheduleItem
deriving DecidableEq, Repr

/-- The target range of SchedulingOptions.weekRange. -/
structure TargetWeekRange where
  start : Nat
  stop : Nat
deriving DecidableEq, Repr

/-- SchedulingOptions from schedulingAlgorithm.ts. -/
structure SchedulingOptions where
  selectedWeek : Option Nat
  weekRange : Option TargetWeekRange
deriving DecidableEq, Repr

/-- SchedulingResult from schedulingAlgorithm.ts. -/
structure SchedulingResult where
  schedule : List ScheduleItem
  conflicts : List Conflict
  success : Bool
  message : String
deriving DecidableEq, Repr

/-- JavaScript truthiness of an optional number: `undefined` and `0`
are falsy.  Used wherever the source writes `if (options.selectedWeek)`. -/
def jsTruthyNat : Option Nat → Option Nat
  | some 0 => none
  | o => o

/-- JavaScript `a || b` on optional strings: `undefined` and the empty
string are falsy. -/
def jsOrString (a b : Option String) : Option String :=
  match a with
  | some s => if s = "" then b else some s
  | none => b

/-- Character class `\d` of a JavaScript regular expression. -/
def isDigitChar (c : Char) : Bool :=
  '0' ≤ c && c ≤ '9'

/-- Value of a decimal digit string, as computed by `parseInt` on a
string of digits. -/
def digitsToNat (ds : List Char) : Nat :=
  ds.foldl (fun a c => 10 * a + (c.toNat - '0'.toNat)) 0

/-- Whitespace class `\s` of JavaScript regular expressions (also the
set stripped by `String.prototype.trim`). -/
def isJsSpace (c : Char) : Bool :=
  c = ' ' || c = '\t' || c = '\n' || c = '\r' || c.toNat = 11 || c.toNat = 12 ||
  c.toNat = 0xa0 || c.toNat = 0x1680 || (0x2000 ≤ c.toNat && c.toNat ≤ 0x200a) ||
  c.toNat = 0x2028 || c.toNat = 0x2029 || c.toNat = 0x202f || c.toNat = 0x205f ||
  c.toNat = 0x3000 || c.toNat = 0xfeff

/-- JavaScript `String.prototype.trim` on a character list. -/
def trimChars (cs : List Char) : List Char :=
  ((cs.dropWhile isJsSpace).reverse.dropWhile isJsSpace).reverse

/-- isWeekInRanges from courseTimeParser.ts: a week is in range when the
list is absent or empty, or some range contains it. -/
def isWeekInRanges (week : Nat) (ranges : Option (List WeekRange)) : Bool :=
  match ranges with
  | none => true
  | some rs =>
    if rs.isEmpty then true
    else rs.any (fun range => week ≥ range.start && week ≤ range.stop)

/-!
parseTimeSlots embeds the regular-expression match
`第(\d+)(?:-(\d+))?节` of courseTimeParser.ts.  `matchPeriodAt`
attempts the pattern at one position of the subject (the pattern is
deterministic there: `\d+` is maximal because a shorter digit run would
leave a digit where `-` or `节` is required, and the optional dash
group either matches completely or is dropped); `scanPeriod` scans the
positions left to right, which is first-match regex semantics.
-/

/-- Match attempt of `第(\d+)(?:-(\d+))?节` at the head of the list,
returning the two capture groups. -/
def matchPeriodAt : List Char → Option (List Char × Option (List Char))
  | [] => none
  | c :: rest =>
    if c = '第' then
      let d1 := rest.takeWhile isDigitChar
      let r1 := rest.dropWhile isDigitChar
      if d1.isEmpty then none
      else
        match r1 with
        | '-' :: r2 =>
          let d2 := r2.takeWhile isDigitChar
          let r3 := r2.dropWhile isDigitChar
          if d2.isEmpty then none
          else match r3 with
            | '节' :: _ => some (d1, some d2)
            | _ => none
        | '节' :: _ => some (d1, none)
        | _ => none
    else none

/-- Leftmost match of the period pattern (regex scan). -/
def scanPeriod : List Char → Option (List Char × Option (List Char))
  | [] => none
  | c :: cs =>
    match matchPeriodAt (c :: cs) with
    | some g => some g
    | none => scanPeriod cs

/-- Ascending list of period ids `[start, ..., stop]` as produced by the
`for` loop of parseTimeSlots (empty when `stop < start`). -/
def periodRange (start stop : Nat) : List Nat :=
  (List.range (stop + 1 - start)).map (fun i => start + i)

/-- parseTimeSlots from courseTimeParser.ts. -/
def parseTimeSlots (timeStr : String) : List String :=
  match scanPeriod timeStr.data with
  | none => []
  | some (d1, d2) =>
    let start := digitsToNat d1
    let stop := match d2 with
      | some d => digitsToNat d
      | none => digitsToNat d1
    (periodRange start stop).map (fun i => toString i)

/-!
parseWeekRange embeds `(\d+)(?:-(\d+))?周?` (unanchored first match).
The pattern begins with `\d+`, so only positions holding a digit can
match; at such a position the match is deterministic as above, and the
trailing `周?` does not affect the capture groups.
-/

/-- Match attempt of `(\d+)(?:-(\d+))?` at the head of the list. -/
def matchWeekRangeAt : List Char → Option (List Char × Option (List Char))
  | [] => none
  | c :: _rest =>
    if isDigitChar c then
      let cs := c :: _rest
      let d1 := cs.takeWhile isDigitChar
      let r1 := cs.dropWhile isDigitChar
      match r1 with
      | '-' :: r2 =>
        let d2 := r2.takeWhile isDigitChar
        if d2.isEmpty then some (d1, none)
        else some (d1, some d2)
      | _ => some (d1, none)
    else none

/-- Leftmost match for parseWeekRange. -/
def scanWeekRange : List Char → Option (List Char × Option (List Char))
  | [] => none
  | c :: cs =>
    match matchWeekRangeAt (c :: cs) with
    | some g => some g
    | none => scanWeekRange cs

/-- parseWeekRange from courseTimeParser.ts. -/
def parseWeekRange (weekStr : String) : Option WeekRange :=
  match scanWeekRange weekStr.data with
  | none => none
  | some (d1, d2) =>
    let start := digitsToNat d1
    let stop := match d2 with
      | some d => digitsToNat d
      | none => digitsToNat d1
    some { start := start, stop := stop }

/-!
parseLocation embeds `\(([^)]+)\)` (first match): at a `(` the class
`[^)]+` greedily takes every following character up to the next `)`,
which must exist and the run must be non-empty.
-/

/-- Match attempt of `\(([^)]+)\)` at the head of the list, returning
the capture group (the text inside the parentheses). -/
def matchParenAt : List Char → Option (List Char)
  | [] => none
  | c :: rest =>
    if c = '(' then
      let inner := rest.takeWhile (fun x => x ≠ ')')
      if inner.isEmpty then none
      else match rest.dropWhile (fun x => x ≠ ')') with
        | ')' :: _ => some inner
        | _ => none
    else none

/-- Leftmost match for parseLocation. -/
def scanParen : List Char → Option (List Char)
  | [] => none
  | c :: cs =>
    match matchParenAt (c :: cs) with
    | some g => some g
    | none => scanParen cs

/-- parseLocation from courseTimeParser.ts. -/
def parseLocation (text : String) : Option String :=
  (scanParen text.data).map (fun g => String.mk g)

/-- Removal of the first match of `\([^)]+\)`, used by parseTimeLine
(`timeContent.replace(/\([^)]+\)/, '')`). -/
def removeFirstParen : List Char → List Char
  | [] => []
  | c :: cs =>
    match matchParenAt (c :: cs) with
    | some inner => (c :: cs).drop (inner.length + 2)
    | none => c :: removeFirstParen cs

/-- DAY_MAP from courseTimeParser.ts. -/
def DAY_MAP : List (String × Nat) :=
  [("星期一", 1), ("星期二", 2), ("星期三", 3), ("星期四", 4), ("星期五", 5),
   ("星期六", 6), ("星期日", 7),
   ("周一", 1), ("周二", 2), ("周三", 3), ("周四", 4), ("周五", 5),
   ("周六", 6), ("周日", 7),
   ("一", 1), ("二", 2), ("三", 3), ("四", 4), ("五", 5), ("六", 6), ("日", 7)]

/-- parseDay from courseTimeParser.ts (`DAY_MAP[dayStr] || null`; every
value of the map is non-zero, hence truthy). -/
def parseDay (dayStr : String) : Option Nat :=
  (DAY_MAP.find? (fun p => p.1 = dayStr)).map (fun p => p.2)

/-- Weekday characters accepted by the classes `[一二三四五六日]`. -/
def dayChars : List Char := ['一', '二', '三', '四', '五', '六', '日']

/-- Match attempt of the alternation `(星期[一二三四五六日]|周[一二三四五六日])`
at the head of the list, returning the token and the remaining input. -/
def dayTokenAt : List Char → Option (List Char × List Char)
  | '星' :: '期' :: d :: r =>
    if dayChars.contains d then some (['星', '期', d], r) else none
  | '周' :: d :: r =>
    if dayChars.contains d then some (['周', d], r) else none
  | _ => none

/-- Match attempt of the whole occurrence pattern
`(星期[一二三四五六日]|周[一二三四五六日])\s*第\d+(?:-\d+)?节` at the head
of the list, returning the full match and the remaining input.  The
pattern is deterministic at a given position: `\s*` and the digit runs
are maximal (shortening them leaves a character that can satisfy
neither the next literal nor the class), and the optional dash group
either matches completely or is dropped, in which case `节` would have
to stand where the `-` is. -/
def timeOccAt (cs : List Char) : Option (List Char × List Char) :=
  match dayTokenAt cs with
  | none => none
  | some (tok, r) =>
    let sp := r.takeWhile isJsSpace
    let r1 := r.dropWhile isJsSpace
    match r1 with
    | '第' :: r2 =>
      let d1 := r2.takeWhile isDigitChar
      if d1.isEmpty then none
      else
        let r3 := r2.dropWhile isDigitChar
        match r3 with
        | '-' :: r4 =>
          let d2 := r4.takeWhile isDigitChar
          if d2.isEmpty then none
          else
            match r4.dropWhile isDigitChar with
            | '节' :: r6 =>
              some (tok ++ sp ++ '第' :: (d1 ++ '-' :: (d2 ++ ['节'])), r6)
            | _ => none
        | '节' :: r6 => some (tok ++ sp ++ '第' :: (d1 ++ ['节']), r6)
        | _ => none
    | _ => none

/-- Fuelled global scan for the occurrence pattern: leftmost match,
then continue after it (`regex.exec` loop with the `g` flag).  Every
step consumes at least one character, so fuel equal to the length of
the subject is enough. -/
def scanTimeOccsAux : Nat → List Char → List (List Char)
  | 0, _ => []
  | _, [] => []
  | fuel + 1, c :: cs =>
    match timeOccAt (c :: cs) with
    | some (fm, rest) => fm :: scanTimeOccsAux fuel rest
    | none => scanTimeOccsAux fuel cs

/-- All matches of the weekday/period occurrence pattern. -/
def scanTimeOccs (cs : List Char) : List (List Char) :=
  scanTimeOccsAux cs.length cs

/-!
parseTimeLine embeds the week-prefix pattern
`^(\d+(?:-\d+)?周?)[，,]` and the main loop of parseTimeLine.  The
prefix pattern is again deterministic: the digit runs are maximal, and
each optional piece either participates or is dropped, in which case
the following mandatory character test fails anyway.
-/

/-- Match attempt of `^(\d+(?:-\d+)?周?)[，,]` (anchored), returning
the capture group and the input remaining after the full match. -/
def weekPrefixAt (cs : List Char) : Option (List Char × List Char) :=
  let d1 := cs.takeWhile isDigitChar
  let r1 := cs.dropWhile isDigitChar
  if d1.isEmpty then none
  else
    let withDash : Option (List Char × List Char) :=
      match r1 with
      | '-' :: r2 =>
        let d2 := r2.takeWhile isDigitChar
        if d2.isEmpty then none
        else some (d1 ++ '-' :: d2, r2.dropWhile isDigitChar)
      | _ => none
    let finish : List Char × List Char → Option (List Char × List Char) :=
      fun g =>
        match g.2 with
        | '周' :: c :: r => if c = '，' || c = ',' then some (g.1 ++ ['周'], r) else none
        | c :: r => if c = '，' || c = ',' then some (g.1, r) else none
        | [] => none
    match withDash with
    | some g => finish g
    | none => finish (d1, r1)

/-- Result record of parseTimeLine. -/
structure ParseTimeLineResult where
  weeks : Option WeekRange
  timeSlots : List FixedTimeSlot
  location : Option String
deriving DecidableEq, Repr

/-- Local `weeks` of parseTimeLine: the parsed week prefix. -/
def lineWeeks (cs : List Char) : Option WeekRange :=
  match weekPrefixAt cs with
  | some (grp, _) => parseWeekRange (String.mk grp)
  | none => none

/-- Local `location` of parseTimeLine. -/
def lineLocation (cs : List Char) : Option String :=
  (scanParen cs).map (fun g => String.mk g)

/-- Local `timeContent` of parseTimeLine: the trimmed line with the
week prefix and the first parenthesized location removed.  The
replacement of `weekMatch[0]` (a prefix of the trimmed line, because
the pattern is anchored) by the empty string drops that prefix, and
the capture group of parseLocation is non-empty, so `if (location)` is
`isSome`. -/
def lineTimeContent (cs : List Char) : List Char :=
  let tc1 : List Char :=
    match weekPrefixAt cs with
    | some (_, rest) => rest
    | none => cs
  let tc2 : List Char :=
    match lineLocation cs with
    | some _ => removeFirstParen tc1
    | none => tc1
  trimChars tc2

/-- Body of the per-occurrence loop of parseTimeLine.  Each full
occurrence match starts with its weekday token, so the inner
`fullMatch.match(/(星期[...]|周[...])/)` finds it at position 0. -/
def slotOfOcc (weeks : Option WeekRange) (location : Option String)
    (fm : List Char) : Option FixedTimeSlot :=
  match dayTokenAt fm with
  | none => none
  | some (tok, _) =>
    match parseDay (String.mk tok) with
    | none => none
    | some dayOfWeek =>
      let timeSlotIds := parseTimeSlots (String.mk fm)
      if timeSlotIds.isEmpty then none
      else some { dayOfWeek := dayOfWeek, timeSlotIds := timeSlotIds,
                  weeks := weeks.map (fun w => [w]), location := location }

/-- parseTimeLine from courseTimeParser.ts. -/
def parseTimeLine (line : String) : ParseTimeLineResult :=
  let cs := trimChars line.data
  { weeks := lineWeeks cs
    timeSlots := (scanTimeOccs (lineTimeContent cs)).filterMap
      (slotOfOcc (lineWeeks cs) (lineLocation cs))
    location := lineLocation cs }

/-!
mergeWeekRanges from courseTimeParser.ts.  The JavaScript
`sort((a, b) => a.start - b.start)` is a stable sort by `start`;
`insertByStart`/`sortByStart` is the stable insertion sort.  The walk
that keeps a current open range and either extends it or closes it is
`mergeLoop`.
-/

/-- Stable insertion of a range into a list sorted by `start`. -/
def insertByStart (r : WeekRange) : List WeekRange → List WeekRange
  | [] => [r]
  | x :: xs => if r.start ≤ x.start then r :: x :: xs else x :: insertByStart r xs

/-- Stable sort by `start` ascending. -/
def sortByStart : List WeekRange → List WeekRange
  | [] => []
  | r :: rs => insertByStart r (sortByStart rs)

/-- Walk of mergeWeekRanges: `cur` is the current open range; a next
range whose start is at most `cur.stop + 1` extends it. -/
def mergeLoop (cur : WeekRange) : List WeekRange → List WeekRange
  | [] => [cur]
  | r :: rs =>
    if r.start ≤ cur.stop + 1 then
      mergeLoop { start := cur.start, stop := max cur.stop r.stop } rs
    else
      cur :: mergeLoop r rs

/-- mergeWeekRanges from courseTimeParser.ts. -/
def mergeWeekRanges (weekRanges : List WeekRange) : List WeekRange :=
  match sortByStart weekRanges with
  | [] => []
  | r :: rs => mergeLoop r rs

/-- Grouping key of deduplicateTimeSlots:
`dayOfWeek + "-" + timeSlotIds.join(',') + "-" + (location || '')`. -/
def slotKey (slot : FixedTimeSlot) : String :=
  toString slot.dayOfWeek ++ "-" ++ String.intercalate "," slot.timeSlotIds ++ "-" ++
    (match slot.location with
     | some s => s
     | none => "")

/-- Week merging applied when a later slot hits an existing key
(the body of the `if (slotMap.has(key))` branch). -/
def mergeInto (existing slot : FixedTimeSlot) : FixedTimeSlot :=
  match slot.weeks with
  | some ws =>
    if ws.isEmpty then existing
    else
      match existing.weeks with
      | some ews =>
        if ews.isEmpty then { existing with weeks := some ws }
        else { existing with weeks := some (mergeWeekRanges (ews ++ ws)) }
      | none => { existing with weeks := some ws }
  | none => existing

/-- One step of the deduplication fold over the insertion-ordered map. -/
def dedupStep (acc : List (String × FixedTimeSlot)) (slot : FixedTimeSlot) :
    List (String × FixedTimeSlot) :=
  match acc with
  | [] => [(slotKey slot, slot)]
  | (k, s) :: rest =>
    if k = slotKey slot then (k, mergeInto s slot) :: rest
    else (k, s) :: dedupStep rest slot

/-- deduplicateTimeSlots from courseTimeParser.ts (the `Map` preserves
first-insertion order of keys). -/
def deduplicateTimeSlots (timeSlots : List FixedTimeSlot) : List FixedTimeSlot :=
  (timeSlots.foldl dedupStep []).map (fun p => p.2)

/-!
Embedding of src/utils/schedulingAlgorithm.ts (the current version,
with week-range support).  The runtime guards
`!course.fixedTimeSlots || !Array.isArray(...)` cannot fire in the
typed model, where those fields are lists by construction.
-/

/-- getWeekSuffix from schedulingAlgorithm.ts. -/
def getWeekSuffix (weeks : Option (List WeekRange)) (options : SchedulingOptions) : String :=
  match jsTruthyNat options.selectedWeek with
  | some w => "w" ++ toString w
  | none =>
    match weeks with
    | some (r :: _) => "w" ++ toString r.start ++ "-" ++ toString r.stop
    | _ => "all"

/-- hasWeekRangeOverlap from schedulingAlgorithm.ts. -/
def hasWeekRangeOverlap (timeSlotWeeks : List WeekRange) (targetRange : TargetWeekRange) : Bool :=
  timeSlotWeeks.any (fun range =>
    range.start ≤ targetRange.stop && range.stop ≥ targetRange.start)

/-- Items emitted for one FixedTimeSlot (the inner `for` loop of
scheduleForCourse). -/
def emitSlotItems (course : Course) (fixedSlot : FixedTimeSlot)
    (options : SchedulingOptions) : List ScheduleItem :=
  fixedSlot.timeSlotIds.map (fun timeSlotId =>
    { id := course.id ++ "-" ++ toString fixedSlot.dayOfWeek ++ "-" ++ timeSlotId ++
        "-" ++ getWeekSuffix fixedSlot.weeks options
      courseId := course.id
      teacherId := course.teacherId
      timeSlotId := timeSlotId
      dayOfWeek := fixedSlot.dayOfWeek
      weeks := fixedSlot.weeks
      location := jsOrString fixedSlot.location course.location })

/-- scheduleForCourse from schedulingAlgorithm.ts.  A slot is skipped
when a (truthy) selected week lies outside its week ranges, or when a
week range option is present and the slot has a `weeks` array (even an
empty one, which is truthy in JavaScript) not overlapping the target. -/
def scheduleForCourse (course : Course) (options : SchedulingOptions) : List ScheduleItem :=
  course.fixedTimeSlots.foldl (fun acc fixedSlot =>
    match jsTruthyNat options.selectedWeek with
    | some w =>
      if isWeekInRanges w fixedSlot.weeks then acc ++ emitSlotItems course fixedSlot options
      else acc
    | none =>
      match options.weekRange with
      | some targetRange =>
        match fixedSlot.weeks with
        | some ws =>
          if hasWeekRangeOverlap ws targetRange then acc ++ emitSlotItems course fixedSlot options
          else acc
        | none => acc ++ emitSlotItems course fixedSlot options
      | none => acc ++ emitSlotItems course fixedSlot options) []

/-- hasWeekOverlap from schedulingAlgorithm.ts: absent or empty week
lists always overlap; otherwise some pair of ranges must intersect. -/
def hasWeekOverlap (weeks1 weeks2 : Option (List WeekRange)) : Bool :=
  match weeks1, weeks2 with
  | some w1, some w2 =>
    if w1.isEmpty || w2.isEmpty then true
    else w1.any (fun range1 => w2.any (fun range2 =>
      range1.start ≤ range2.stop && range1.stop ≥ range2.start))
  | _, _ => true

/-- Inner `for (j = i+1; ...)` loop of findWeekConflictingItems, over
item indices (JavaScript `includes` compares object identity, which for
the members of one group is their position).  Returns the `hasConflict`
flag for item `i` and the updated `conflicting` index list. -/
def innerConflictLoop (wsOf : Nat → Option (List WeekRange)) (i : Nat) :
    List Nat → List Nat → Bool × List Nat
  | [], conflicting => (false, conflicting)
  | j :: rest, conflicting =>
    let step : Bool × List Nat :=
      if hasWeekOverlap (wsOf i) (wsOf j) then
        (true, if conflicting.contains j then conflicting else conflicting ++ [j])
      else (false, conflicting)
    let next := innerConflictLoop wsOf i rest step.2
    (step.1 || next.1, next.2)

/-- Outer `for (i = 0; ...)` loop of findWeekConflictingItems. -/
def outerConflictLoop (wsOf : Nat → Option (List WeekRange)) (n : Nat) :
    List Nat → List Nat → List Nat
  | [], conflicting => conflicting
  | i :: rest, conflicting =>
    let inner := innerConflictLoop wsOf i (List.range' (i + 1) (n - (i + 1))) conflicting
    let c2 := if inner.1 && !inner.2.contains i then inner.2 ++ [i] else inner.2
    outerConflictLoop wsOf n rest c2

/-- findWeekConflictingItems from schedulingAlgorithm.ts.  With a
(truthy) selected week it keeps the items valid in that week; otherwise
it collects, in push order, the items overlapping some other item of
the group.  The corrected code returns only those (an empty list when
no pair overlaps). -/
def findWeekConflictingItems (items : List ScheduleItem) (selectedWeek : Option Nat) :
    List ScheduleItem :=
  match jsTruthyNat selectedWeek with
  | some w => items.filter (fun item => item.weeks.isNone || isWeekInRanges w item.weeks)
  | none =>
    let wsOf : Nat → Option (List WeekRange) := fun i => (items.get? i).bind (fun it => it.weeks)
    let idxs := outerConflictLoop wsOf items.length (List.range items.length) []
    idxs.filterMap (fun i => items.get? i)

/-- Grouping key of detectTimeConflicts:
`item.dayOfWeek + "-" + item.timeSlotId`. -/
def itemKey (item : ScheduleItem) : String :=
  toString item.dayOfWeek ++ "-" ++ item.timeSlotId

/-- Insertion into the insertion-ordered group map of
detectTimeConflicts. -/
def groupInsert (groups : List (String × List ScheduleItem)) (key : String)
    (item : ScheduleItem) : List (String × List ScheduleItem) :=
  match groups with
  | [] => [(key, [item])]
  | (k, items) :: rest =>
    if k = key then (k, items ++ [item]) :: rest
    else (k, items) :: groupInsert rest key item

/-- Names of the weekdays used in conflict messages (index 0 unused;
an out-of-range index is `undefined`, printed as "undefined"). -/
def dayNames : List String :=
  ["", "周一", "周二", "周三", "周四", "周五", "周六", "周日"]

/-- Message construction of one conflict of detectTimeConflicts (the
body of the `timeMap.forEach` callback).  The first split component of
a group key is the decimal weekday, so `parseInt` on it is
`String.toNat?` (the fallback 0 is never taken). -/
def conflictMessage (timeSlots : List TimeSlot) (selectedWeek : Option Nat)
    (timeKey : String) : String :=
  let parts := timeKey.splitOn "-"
  let dayStr := parts.headD ""
  let slotStr := (parts.drop 1).headD ""
  let dayName := dayNames.getD (dayStr.toNat?.getD 0) "undefined"
  let shown :=
    match timeSlots.find? (fun ts => ts.id = slotStr) with
    | some ts => if ts.name = "" then slotStr else ts.name
    | none => slotStr
  let weekInfo :=
    match jsTruthyNat selectedWeek with
    | some w => "第" ++ toString w ++ "周 "
    | none => ""
  weekInfo ++ dayName ++ " " ++ shown ++ " 有多个课程安排"

/-- Conflict construction for one group (continued): the `forEach`
callback computes `conflictItems` once; it is written out twice here. -/
def conflictOfGroup (timeSlots : List TimeSlot) (selectedWeek : Option Nat)
    (p : String × List ScheduleItem) : Option Conflict :=
  if p.2.length > 1 then
    if (findWeekConflictingItems p.2 selectedWeek).length > 1 then
      some { type := "time",
             message := conflictMessage timeSlots selectedWeek p.1,
             items := findWeekConflictingItems p.2 selectedWeek }
    else none
  else none

/-- detectTimeConflicts from schedulingAlgorithm.ts. -/
def detectTimeConflicts (schedule : List ScheduleItem) (timeSlots : List TimeSlot)
    (selectedWeek : Option Nat) : List Conflict :=
  let kept := schedule.filter (fun item =>
    match jsTruthyNat selectedWeek, item.weeks with
    | some w, some ws => isWeekInRanges w (some ws)
    | _, _ => true)
  let groups := kept.foldl (fun m item => groupInsert m (itemKey item) item) []
  groups.filterMap (conflictOfGroup timeSlots selectedWeek)

/-- detectConflicts from schedulingAlgorithm.ts (only time conflicts). -/
def detectConflicts (schedule : List ScheduleItem) (timeSlots : List TimeSlot)
    (selectedWeek : Option Nat) : List Conflict :=
  detectTimeConflicts schedule timeSlots selectedWeek

/-- generateSchedule from schedulingAlgorithm.ts, on the list of
courses and the (order-sorted) time slots of the algorithm instance.
The embedded computation is total, so only the non-throwing path
exists; `success` is `conflicts.length === 0`. -/
def generateSchedule (courses : List Course) (timeSlots : List TimeSlot)
    (options : SchedulingOptions) : SchedulingResult :=
  let schedule := courses.foldl (fun acc course => acc ++ scheduleForCourse course options) []
  let conflicts := detectConflicts schedule timeSlots options.selectedWeek
  let weekInfo :=
    match jsTruthyNat options.selectedWeek with
    | some w => "第" ++ toString w ++ "周"
    | none =>
      match options.weekRange with
      | some r => "第" ++ toString r.start ++ "-" ++ toString r.stop ++ "周"
      | none => "全学期"
  { schedule := schedule
    conflicts := conflicts
    success := conflicts.length == 0
    message :=
      if conflicts.length == 0 then weekInfo ++ "课表生成成功！"
      else weekInfo ++ "课表生成完成，但存在 " ++ toString conflicts.length ++ " 个时间冲突" }

/-!
Semantic notions used by the theorems: point membership in a range, the
set of weeks covered by a range list, and the canonical form produced
by the week-range merge.
-/

/-- Membership of a week in one range. -/
def inWR (r : WeekRange) (w : Nat) : Bool :=
  r.start ≤ w && w ≤ r.stop

/-- Membership of a week in the set denoted by a range list. -/
def covers (rs : List WeekRange) (w : Nat) : Bool :=
  rs.any (fun r => inWR r w)

/-- Canonical range list: every range is well formed, and consecutive
ranges are sorted with a gap (non-overlapping and non-adjacent). -/
def IsCanonical (l : List WeekRange) : Prop :=
  (∀ r ∈ l, r.start ≤ r.stop) ∧ List.Chain' (fun a b => a.stop + 1 < b.start) l

/-- Slot-filter condition of scheduleForCourse, extracted for the
proofs (the `continue` conditions negated). -/
def keepSlot (options : SchedulingOptions) (s : FixedTimeSlot) : Bool :=
  match jsTruthyNat options.selectedWeek with
  | some w => isWeekInRanges w s.weeks
  | none =>
    match options.weekRange with
    | some targetRange =>
      match s.weeks with
      | some ws => hasWeekRangeOverlap ws targetRange
      | none => true
    | none => true

/-- Code-unit comparison of character lists (the order used by the
default JavaScript `Array.prototype.sort` on these ASCII strings). -/
def charListLe : List Char → List Char → Bool
  | [], _ => true
  | _ :: _, [] => false
  | a :: as, b :: bs =>
    if a.toNat < b.toNat then true
    else if b.toNat < a.toNat then false
    else charListLe as bs

/-- Stable insertion for sorting strings. -/
def insertString (s : String) : List String → List String
  | [] => [s]
  | x :: xs => if charListLe s.data x.data then s :: x :: xs else x :: insertString s xs

/-- Sort of a string list (JavaScript default `Array.prototype.sort`
order on these ASCII digit strings). -/
def sortStrings : List String → List String
  | [] => []
  | s :: ss => insertString s (sortStrings ss)

/-- Modelled from the spec: the grouping key claimed in 4.6, namely
`(dayOfWeek, sorted joined timeSlotIds, location-or-empty)`.  The code
(`deduplicateTimeSlots`) joins `timeSlotIds` in their given order
without sorting; this definition follows the spec's words and exists to
be compared with `slotKey`. -/
def specSlotKey (slot : FixedTimeSlot) : String :=
  toString slot.dayOfWeek ++ "-" ++
    String.intercalate "," (sortStrings slot.timeSlotIds) ++ "-" ++
    (match slot.location with
     | some s => s
     | none => "")

/-- Distinct keys in first-occurrence order. -/
def firstKeys : List String → List String
  | [] => []
  | k :: ks => k :: (firstKeys ks).filter (fun x => x ≠ k)

/-- Group of input slots sharing one key, in input order. -/
def groupSlots (slots : List FixedTimeSlot) (k : String) : List FixedTimeSlot :=
  slots.filter (fun s => slotKey s = k)

/-- Non-empty week lists contributed by a group, in input order. -/
def weekContribs (g : List FixedTimeSlot) : List (List WeekRange) :=
  g.filterMap (fun s =>
    match s.weeks with
    | some ws => if ws.isEmpty then none else some ws
    | none => none)

/-- Placeholder slot (never used on reachable paths). -/
def defaultSlot : FixedTimeSlot :=
  { dayOfWeek := 0, timeSlotIds := [], weeks := none, location := none }

/-- Declarative weeks of a deduplicated group: with no week-bearing
slot, the first slot's weeks value survives; a single contributed list
is kept verbatim; two or more are concatenated and merged. -/
def declWeeks (g : List FixedTimeSlot) : Option (List WeekRange) :=
  match weekContribs g with
  | [] => (g.headD defaultSlot).weeks
  | [ws] => some ws
  | contribs => some (mergeWeekRanges contribs.flatten)

/-- Declarative output slot of deduplication for one key: first-seen
fields, declarative weeks. -/
def declSlot (slots : List FixedTimeSlot) (k : String) : FixedTimeSlot :=
  let g := groupSlots slots k
  let f := g.headD defaultSlot
  { f with weeks := declWeeks g }

/-- Accumulated map entry of deduplication for one group: the first
slot of the group, merged with each later slot in order. -/
def combineGroup (g : List FixedTimeSlot) : FixedTimeSlot :=
  g.tail.foldl mergeInto (g.headD defaultSlot)

/-- Decimal digit characters of a natural number (big endian); agrees
with `Nat.repr`. -/
def natDigits (n : Nat) : List Char :=
  if _h : n < 10 then [Nat.digitChar n]
  else natDigits (n / 10) ++ [Nat.digitChar (n % 10)]
termination_by n
decreasing_by
  exact Nat.div_lt_self (by omega) (by omega)

/-!
Concrete data for the example conjuncts, counterexamples and witnesses.
-/

/-- Course of the claim C5 example: periods 5 and 6 on Monday and on
Wednesday. -/
def exampleCourseC5 : Course :=
  { id := "1", name := "有限自动机理论", teacherId := "t1", location := none,
    fixedTimeSlots :=
      [{ dayOfWeek := 1, timeSlotIds := ["5", "6"], weeks := none, location := none },
       { dayOfWeek := 3, timeSlotIds := ["5", "6"], weeks := none, location := none }] }

/-- First course of the overlapping-conflict example (weeks 1-8). -/
def courseC2a : Course :=
  { id := "1", name := "A", teacherId := "t1", location := none,
    fixedTimeSlots :=
      [{ dayOfWeek := 1, timeSlotIds := ["5"], weeks := some [⟨1, 8⟩], location := none }] }

/-- Second course of the overlapping-conflict example (weeks 6-10). -/
def courseC2b : Course :=
  { id := "2", name := "B", teacherId := "t2", location := none,
    fixedTimeSlots :=
      [{ dayOfWeek := 1, timeSlotIds := ["5"], weeks := some [⟨6, 10⟩], location := none }] }

/-- Course whose slot has a present but empty location string. -/
def courseC10 : Course :=
  { id := "c", name := "C", teacherId := "t", location := some "立人楼B402",
    fixedTimeSlots :=
      [{ dayOfWeek := 1, timeSlotIds := ["5"], weeks := some [⟨1, 6⟩], location := some "" }] }

/-- Item emitted for `courseC10`. -/
def itemC10 : ScheduleItem :=
  { id := "c-1-5-w1-6", courseId := "c", teacherId := "t", timeSlotId := "5",
    dayOfWeek := 1, weeks := some [⟨1, 6⟩], location := some "立人楼B402" }

/-- Conflict-example item: day 1, period 5, weeks 1-6. -/
def itemC1a : ScheduleItem :=
  { id := "a", courseId := "c1", teacherId := "t1", timeSlotId := "5",
    dayOfWeek := 1, weeks := some [⟨1, 6⟩], location := none }

/-- Conflict-example item: day 1, period 5, weeks 7-8. -/
def itemC1b : ScheduleItem :=
  { id := "b", courseId := "c2", teacherId := "t2", timeSlotId := "5",
    dayOfWeek := 1, weeks := some [⟨7, 8⟩], location := none }

/-- Conflict-example item: day 1, period 5, weeks 1-8. -/
def itemC1c : ScheduleItem :=
  { id := "a", courseId := "c1", teacherId := "t1", timeSlotId := "5",
    dayOfWeek := 1, weeks := some [⟨1, 8⟩], location := none }

/-- Conflict-example item: day 1, period 5, weeks 6-10. -/
def itemC1d : ScheduleItem :=
  { id := "b", courseId := "c2", teacherId := "t2", timeSlotId := "5",
    dayOfWeek := 1, weeks := some [⟨6, 10⟩], location := none }

/-- Deduplication-example slot with weeks 1-6. -/
def slotC3a : FixedTimeSlot :=
  { dayOfWeek := 1, timeSlotIds := ["5", "6"], weeks := some [⟨1, 6⟩],
    location := some "立人楼B411" }

/-- Deduplication-example slot with weeks 7-8. -/
def slotC3b : FixedTimeSlot :=
  { dayOfWeek := 1, timeSlotIds := ["5", "6"], weeks := some [⟨7, 8⟩],
    location := some "立人楼B411" }

/-- Counterexample slot with the period ids listed as ["6","5"]. -/
def slotC3x : FixedTimeSlot :=
  { dayOfWeek := 1, timeSlotIds := ["6", "5"], weeks := some [⟨1, 6⟩], location := some "L" }

/-- Counterexample slot with the period ids listed as ["5","6"]. -/
def slotC3y : FixedTimeSlot :=
  { dayOfWeek := 1, timeSlotIds := ["5", "6"], weeks := some [⟨7, 8⟩], location := some "L" }

/-- Counterexample slot whose single weeks list is unsorted. -/
def slotC3z : FixedTimeSlot :=
  { dayOfWeek := 2, timeSlotIds := ["1"], weeks := some [⟨7, 8⟩, ⟨1, 6⟩], location := none }

/-- Example line of claim C8. -/
def lineC8 : String := "1-6周，星期一第5-6节 星期三第5-6节 (立人楼B411)"

/-- First slot parsed from `lineC8`. -/
def slotC8a : FixedTimeSlot :=
  { dayOfWeek := 1, timeSlotIds := ["5", "6"], weeks := some [⟨1, 6⟩],
    location := some "立人楼B411" }

/-- Second slot parsed from `lineC8`. -/
def slotC8b : FixedTimeSlot :=
  { dayOfWeek := 3, timeSlotIds := ["5", "6"], weeks := some [⟨1, 6⟩],
    location := some "立人楼B411" }

/-!
Theorems.  General helper lemmas come first, then one theorem per
claim (with witnesses and counterexamples where required).
-/

theorem length_foldl_append {α β : Type} (f : α → List β) (l : List α) (acc : List β) :
    (l.foldl (fun a x => a ++ f x) acc).length
      = acc.length + (l.map (fun x => (f x).length)).sum := by
  induction l generalizing acc with
  | nil => simp
  | cons x xs ih => simp [ih, List.length_append]; omega

theorem scheduleForCourse_none (c : Course) :
    scheduleForCourse c ⟨none, none⟩ =
      c.fixedTimeSlots.foldl (fun acc s => acc ++ emitSlotItems c s ⟨none, none⟩) [] := rfl

theorem emitSlotItems_length (c : Course) (s : FixedTimeSlot) (o : SchedulingOptions) :
    (emitSlotItems c s o).length = s.timeSlotIds.length := by
  simp [emitSlotItems]

theorem scheduleForCourse_none_length (c : Course) :
    (scheduleForCourse c ⟨none, none⟩).length
      = (c.fixedTimeSlots.map (fun s => s.timeSlotIds.length)).sum := by
  rw [scheduleForCourse_none, length_foldl_append]
  simp [emitSlotItems_length]

theorem generateSchedule_schedule (courses : List Course) (ts : List TimeSlot)
    (o : SchedulingOptions) :
    (generateSchedule courses ts o).schedule
      = courses.foldl (fun acc c => acc ++ scheduleForCourse c o) [] := rfl

/-- Claim C5: with no week-filtering options, schedule generation emits
one ScheduleItem per (course, fixed slot, period id) triple, so the
schedule length is the double sum of `timeSlotIds` lengths; the
two-slot example course yields exactly the four expected items. -/
theorem claim_C5 :
    (∀ (courses : List Course) (ts : List TimeSlot),
      (generateSchedule courses ts ⟨none, none⟩).schedule.length
        = (courses.map (fun c =>
            (c.fixedTimeSlots.map (fun s => s.timeSlotIds.length)).sum)).sum)
    ∧ (generateSchedule [exampleCourseC5] [] ⟨none, none⟩).schedule.length = 4
    ∧ (generateSchedule [exampleCourseC5] [] ⟨none, none⟩).schedule.map
        (fun it => (it.dayOfWeek, it.timeSlotId))
        = [(1, "5"), (1, "6"), (3, "5"), (3, "6")] := by
  refine ⟨?_, by decide, by decide⟩
  intro courses ts
  rw [generateSchedule_schedule, length_foldl_append]
  simp [scheduleForCourse_none_length]

/-- Claim C2 (amended): a non-throwing run returns `success = true`
exactly when the conflict list is empty; detected conflicts make the
run report failure, they do not discard the generated schedule. -/
theorem claim_C2 :
    ∀ (courses : List Course) (ts : List TimeSlot) (options : SchedulingOptions),
      ((generateSchedule courses ts options).success = true
        ↔ (generateSchedule courses ts options).conflicts = []) := by
  intro c t o
  have h : (generateSchedule c t o).success
      = ((generateSchedule c t o).conflicts.length == 0) := rfl
  rw [h, beq_iff_eq, List.length_eq_zero]

/-- Counterexample to claim C2 as stated: a run whose only anomaly is a
detected conflict returns `success = false`, not a successful result. -/
theorem claim_C2_counterexample :
    (generateSchedule [courseC2a, courseC2b] [] ⟨none, none⟩).conflicts ≠ []
    ∧ (generateSchedule [courseC2a, courseC2b] [] ⟨none, none⟩).success = false := by
  exact ⟨by decide, by decide⟩

theorem foldl_filter_append_mem {α β : Type} (p : α → Bool) (f : α → List β) :
    ∀ (l : List α) (acc : List β) (x : β),
      (x ∈ l.foldl (fun a s => if p s then a ++ f s else a) acc
        ↔ x ∈ acc ∨ ∃ s ∈ l, p s = true ∧ x ∈ f s) := by
  intro l
  induction l with
  | nil => simp
  | cons s ss ih =>
    intro acc x
    by_cases hp : p s = true
    · simp only [List.foldl_cons, hp, if_true, ih, List.mem_append, List.mem_cons]
      constructor
      · rintro ((h | h) | ⟨t, ht, hpt, hx⟩)
        · exact Or.inl h
        · exact Or.inr ⟨s, Or.inl rfl, hp, h⟩
        · exact Or.inr ⟨t, Or.inr ht, hpt, hx⟩
      · rintro (h | ⟨t, (rfl | ht), hpt, hx⟩)
        · exact Or.inl (Or.inl h)
        · exact Or.inl (Or.inr hx)
        · exact Or.inr ⟨t, ht, hpt, hx⟩
    · simp only [List.foldl_cons, hp, if_false, ih, List.mem_cons]
      constructor
      · rintro (h | ⟨t, ht, hpt, hx⟩)
        · exact Or.inl h
        · exact Or.inr ⟨t, Or.inr ht, hpt, hx⟩
      · rintro (h | ⟨t, (rfl | ht), hpt, hx⟩)
        · exact Or.inl h
        · exact absurd hpt hp
        · exact Or.inr ⟨t, ht, hpt, hx⟩

theorem scheduleForCourse_eq_filter (c : Course) (o : SchedulingOptions) :
    scheduleForCourse c o = c.fixedTimeSlots.foldl
      (fun acc s => if keepSlot o s then acc ++ emitSlotItems c s o else acc) [] := by
  unfold scheduleForCourse keepSlot
  rcases h1 : jsTruthyNat o.selectedWeek with _ | w
  · rcases h2 : o.weekRange with _ | tr
    · simp
    · congr 1
      funext acc s
      rcases s.weeks with _ | ws <;> simp
  · simp

theorem mem_scheduleForCourse {c : Course} {o : SchedulingOptions} {x : ScheduleItem}
    (h : x ∈ scheduleForCourse c o) :
    ∃ s ∈ c.fixedTimeSlots, x ∈ emitSlotItems c s o := by
  rw [scheduleForCourse_eq_filter] at h
  rcases (foldl_filter_append_mem _ _ _ _ _).1 h with h | ⟨s, hs, _, hx⟩
  · cases h
  · exact ⟨s, hs, hx⟩

theorem emitSlotItems_fields {c : Course} {s : FixedTimeSlot} {o : SchedulingOptions}
    {x : ScheduleItem} (h : x ∈ emitSlotItems c s o) :
    x.weeks = s.weeks ∧ x.location = jsOrString s.location c.location := by
  rcases List.mem_map.1 h with ⟨tid, _, rfl⟩
  exact ⟨rfl, rfl⟩

/-- Claim C10 (amended): every emitted ScheduleItem copies its slot's
weeks unchanged and carries the slot's location when that is present
and non-empty; an absent or empty slot location falls back to the
course's location. -/
theorem claim_C10 :
    ∀ (course : Course) (options : SchedulingOptions) (item : ScheduleItem),
      item ∈ scheduleForCourse course options →
      ∃ slot ∈ course.fixedTimeSlots,
        item.weeks = slot.weeks ∧
        item.location =
          (match slot.location with
           | some s => if s = "" then course.location else some s
           | none => course.location) := by
  intro course options item hmem
  rcases mem_scheduleForCourse hmem with ⟨s, hs, hx⟩
  rcases emitSlotItems_fields hx with ⟨hw, hl⟩
  refine ⟨s, hs, hw, ?_⟩
  rw [hl]
  rcases s.location with _ | str <;> rfl

/-- Counterexample to claim C10 as stated: a slot whose location is the
present (but empty) string is not carried to the item; the course
location is used instead. -/
theorem claim_C10_counterexample :
    courseC10.fixedTimeSlots.map (fun s => s.location) = [some ""]
    ∧ (scheduleForCourse courseC10 ⟨none, none⟩).map (fun it => it.location)
        = [some "立人楼B402"] := by
  exact ⟨by decide, by decide⟩

/-- Witness for claim C10 at a concrete input. -/
theorem claim_C10_witness :
    itemC10 ∈ scheduleForCourse courseC10 ⟨none, none⟩
    ∧ ∃ slot ∈ courseC10.fixedTimeSlots,
        itemC10.weeks = slot.weeks ∧
        itemC10.location =
          (match slot.location with
           | some s => if s = "" then courseC10.location else some s
           | none => courseC10.location) :=
  ⟨by decide, claim_C10 courseC10 ⟨none, none⟩ itemC10 (by decide)⟩

/-- Claim C6: week membership is true for an absent or empty range
list, and otherwise holds exactly when some range contains the week;
the three concrete examples of the specification evaluate accordingly. -/
theorem claim_C6 :
    (∀ w, isWeekInRanges w none = true)
    ∧ (∀ w, isWeekInRanges w (some []) = true)
    ∧ (∀ (w : Nat) (ws : List WeekRange), ws ≠ [] →
        (isWeekInRanges w (some ws) = true ↔ ∃ r ∈ ws, r.start ≤ w ∧ w ≤ r.stop))
    ∧ isWeekInRanges 5 (some [⟨1, 6⟩, ⟨7, 8⟩]) = true
    ∧ isWeekInRanges 10 (some [⟨1, 6⟩, ⟨7, 8⟩]) = false
    ∧ isWeekInRanges 5 none = true := by
  refine ⟨fun w => rfl, fun w => rfl, ?_, by decide, by decide, rfl⟩
  intro w ws h
  rw [show isWeekInRanges w (some ws)
      = (if ws.isEmpty then true
         else ws.any (fun range => w ≥ range.start && w ≤ range.stop)) from rfl]
  rw [if_neg (by simpa [List.isEmpty_iff] using h)]
  simp [List.any_eq_true, ge_iff_le]

/-- Witness for claim C6 at a concrete input. -/
theorem claim_C6_witness :
    ([⟨1, 6⟩] : List WeekRange) ≠ []
    ∧ (isWeekInRanges 5 (some [⟨1, 6⟩]) = true
        ↔ ∃ r ∈ ([⟨1, 6⟩] : List WeekRange), r.start ≤ 5 ∧ 5 ≤ r.stop) :=
  ⟨by decide, claim_C6.2.2.1 5 [⟨1, 6⟩] (by decide)⟩

theorem slotOfOcc_fields {W : Option WeekRange} {L : Option String} {fm : List Char}
    {s : FixedTimeSlot} (h : slotOfOcc W L fm = some s) :
    s.weeks = W.map (fun w => [w]) ∧ s.location = L := by
  simp only [slotOfOcc] at h
  split at h
  · exact Option.noConfusion h
  · split at h
    · exact Option.noConfusion h
    · split at h
      · exact Option.noConfusion h
      · injection h with h2
        subst h2
        exact ⟨rfl, rfl⟩

/-- Claim C8: the example line parses to exactly the two expected
FixedTimeSlots, and in general every slot emitted for a line carries
the line's (single, wrapped) week range and the line's location. -/
theorem claim_C8 :
    parseTimeLine lineC8 =
      { weeks := some ⟨1, 6⟩, timeSlots := [slotC8a, slotC8b],
        location := some "立人楼B411" }
    ∧ ∀ (line : String) (s : FixedTimeSlot), s ∈ (parseTimeLine line).timeSlots →
        s.weeks = (parseTimeLine line).weeks.map (fun w => [w])
        ∧ s.location = (parseTimeLine line).location := by
  refine ⟨by decide, ?_⟩
  intro line s hs
  have hw : (parseTimeLine line).weeks = lineWeeks (trimChars line.data) := rfl
  have hl : (parseTimeLine line).location = lineLocation (trimChars line.data) := rfl
  have ht : (parseTimeLine line).timeSlots
      = (scanTimeOccs (lineTimeContent (trimChars line.data))).filterMap
          (slotOfOcc (lineWeeks (trimChars line.data)) (lineLocation (trimChars line.data))) := rfl
  rw [ht] at hs
  rcases List.mem_filterMap.1 hs with ⟨fm, _, hf⟩
  rw [hw, hl]
  exact slotOfOcc_fields hf

/-- Witness for claim C8 at a concrete input. -/
theorem claim_C8_witness :
    slotC8a ∈ (parseTimeLine lineC8).timeSlots
    ∧ slotC8a.weeks = (parseTimeLine lineC8).weeks.map (fun w => [w])
    ∧ slotC8a.location = (parseTimeLine lineC8).location :=
  ⟨by decide, claim_C8.2 lineC8 slotC8a (by decide)⟩

theorem bool_ext {a b : Bool} (h : (a = true) ↔ (b = true)) : a = b := by
  cases a <;> cases b <;> simp_all

theorem covers_eq_of_mem_iff {l1 l2 : List WeekRange}
    (h : ∀ r, r ∈ l1 ↔ r ∈ l2) (w : Nat) : covers l1 w = covers l2 w := by
  apply bool_ext
  simp only [covers, List.any_eq_true]
  constructor
  · rintro ⟨r, hr, hw⟩; exact ⟨r, (h r).1 hr, hw⟩
  · rintro ⟨r, hr, hw⟩; exact ⟨r, (h r).2 hr, hw⟩

theorem insertByStart_perm (r : WeekRange) (l : List WeekRange) :
    (insertByStart r l).Perm (r :: l) := by
  induction l with
  | nil => simp [insertByStart]
  | cons x xs ih =>
    unfold insertByStart
    by_cases h : r.start ≤ x.start
    · rw [if_pos h]
    · rw [if_neg h]
      exact (ih.cons x).trans (List.Perm.swap r x xs)

theorem sortByStart_perm (l : List WeekRange) : (sortByStart l).Perm l := by
  induction l with
  | nil => simp [sortByStart]
  | cons r rs ih =>
    exact (insertByStart_perm r (sortByStart rs)).trans (ih.cons r)

theorem insertByStart_pairwise (r : WeekRange) (l : List WeekRange)
    (h : l.Pairwise (fun a b => a.start ≤ b.start)) :
    (insertByStart r l).Pairwise (fun a b => a.start ≤ b.start) := by
  induction l with
  | nil => simp [insertByStart]
  | cons x xs ih =>
    rcases List.pairwise_cons.1 h with ⟨hx, hxs⟩
    unfold insertByStart
    by_cases hr : r.start ≤ x.start
    · rw [if_pos hr]
      refine List.pairwise_cons.2 ⟨?_, h⟩
      intro b hb
      rcases List.mem_cons.1 hb with rfl | hb
      · exact hr
      · exact le_trans hr (hx b hb)
    · rw [if_neg hr]
      refine List.pairwise_cons.2 ⟨?_, ih hxs⟩
      intro b hb
      have hb2 := (insertByStart_perm r xs).mem_iff.1 hb
      rcases List.mem_cons.1 hb2 with rfl | hb2
      · omega
      · exact hx b hb2

theorem sortByStart_pairwise (l : List WeekRange) :
    (sortByStart l).Pairwise (fun a b => a.start ≤ b.start) := by
  induction l with
  | nil => simp [sortByStart]
  | cons r rs ih => exact insertByStart_pairwise r (sortByStart rs) ih

theorem mergeLoop_ne_nil (cur : WeekRange) (rs : List WeekRange) :
    mergeLoop cur rs ≠ [] := by
  induction rs generalizing cur with
  | nil => simp [mergeLoop]
  | cons r rs ih =>
    unfold mergeLoop
    by_cases h : r.start ≤ cur.stop + 1
    · rw [if_pos h]; exact ih _
    · rw [if_neg h]; simp

theorem mergeLoop_head_start (cur : WeekRange) (rs : List WeekRange) :
    ∃ hd tl, mergeLoop cur rs = hd :: tl ∧ hd.start = cur.start := by
  induction rs generalizing cur with
  | nil => exact ⟨cur, [], rfl, rfl⟩
  | cons r rs ih =>
    unfold mergeLoop
    by_cases h : r.start ≤ cur.stop + 1
    · rw [if_pos h]
      rcases ih ⟨cur.start, max cur.stop r.stop⟩ with ⟨hd, tl, he, hs⟩
      exact ⟨hd, tl, he, hs⟩
    · rw [if_neg h]
      exact ⟨cur, mergeLoop r rs, rfl, rfl⟩

theorem inWR_union {cur r : WeekRange} {w : Nat}
    (_hcur : cur.start ≤ cur.stop) (_hr : r.start ≤ r.stop)
    (hle : cur.start ≤ r.start) (hadj : r.start ≤ cur.stop + 1) :
    inWR ⟨cur.start, max cur.stop r.stop⟩ w = (inWR cur w || inWR r w) := by
  apply bool_ext
  simp only [inWR, Bool.or_eq_true, Bool.and_eq_true, decide_eq_true_eq]
  omega

theorem mergeLoop_covers (cur : WeekRange) (rs : List WeekRange)
    (hcur : cur.start ≤ cur.stop) (hwf : ∀ r ∈ rs, r.start ≤ r.stop)
    (hle : ∀ r ∈ rs, cur.start ≤ r.start)
    (hp : rs.Pairwise (fun a b => a.start ≤ b.start)) :
    ∀ w, covers (mergeLoop cur rs) w = (inWR cur w || covers rs w) := by
  induction rs generalizing cur with
  | nil => intro w; simp [mergeLoop, covers]
  | cons r rs ih =>
    intro w
    rcases List.pairwise_cons.1 hp with ⟨hr_le, hp2⟩
    have hwf_r : r.start ≤ r.stop := hwf r (List.mem_cons_self r rs)
    have hwf2 : ∀ x ∈ rs, x.start ≤ x.stop :=
      fun x hx => hwf x (List.mem_cons_of_mem r hx)
    unfold mergeLoop
    by_cases h : r.start ≤ cur.stop + 1
    · rw [if_pos h]
      have hle_r : cur.start ≤ r.start := hle r (List.mem_cons_self r rs)
      have hle2 : ∀ x ∈ rs, cur.start ≤ x.start :=
        fun x hx => hle x (List.mem_cons_of_mem r hx)
      rw [ih ⟨cur.start, max cur.stop r.stop⟩ (by simp; omega) hwf2 hle2 hp2]
      rw [show (⟨cur.start, max cur.stop r.stop⟩ : WeekRange) =
        { start := cur.start, stop := max cur.stop r.stop } from rfl]
      rw [inWR_union hcur hwf_r hle_r h]
      simp [covers, Bool.or_assoc]
    · rw [if_neg h]
      have hcov : covers (cur :: mergeLoop r rs) w
          = (inWR cur w || covers (mergeLoop r rs) w) := by
        simp [covers]
      rw [hcov, ih r hwf_r hwf2 hr_le hp2]
      simp [covers, Bool.or_assoc]

theorem mergeLoop_canonical (cur : WeekRange) (rs : List WeekRange)
    (hcur : cur.start ≤ cur.stop) (hwf : ∀ r ∈ rs, r.start ≤ r.stop) :
    IsCanonical (mergeLoop cur rs) := by
  induction rs generalizing cur with
  | nil =>
    constructor
    · intro r hr
      rcases List.mem_singleton.1 hr with rfl
      exact hcur
    · simp [mergeLoop]
  | cons r rs ih =>
    have hwf_r : r.start ≤ r.stop := hwf r (List.mem_cons_self r rs)
    have hwf2 : ∀ x ∈ rs, x.start ≤ x.stop :=
      fun x hx => hwf x (List.mem_cons_of_mem r hx)
    unfold mergeLoop
    by_cases h : r.start ≤ cur.stop + 1
    · rw [if_pos h]
      exact ih ⟨cur.start, max cur.stop r.stop⟩ (by simp; omega) hwf2
    · rw [if_neg h]
      have hc := ih r hwf_r hwf2
      constructor
      · intro x hx
        rcases List.mem_cons.1 hx with rfl | hx
        · exact hcur
        · exact hc.1 x hx
      · rcases mergeLoop_head_start r rs with ⟨hd, tl, he, hs⟩
        rw [he]
        refine List.chain'_cons'.2 ⟨?_, by rw [← he]; exact hc.2⟩
        intro y hy
        simp only [List.head?_cons, Option.mem_some_iff] at hy
        subst hy
        omega

theorem mergeWeekRanges_covers (rs : List WeekRange)
    (hwf : ∀ r ∈ rs, r.start ≤ r.stop) (w : Nat) :
    covers (mergeWeekRanges rs) w = covers rs w := by
  unfold mergeWeekRanges
  rcases hs : sortByStart rs with _ | ⟨r, rest⟩
  · have hperm := sortByStart_perm rs
    rw [hs] at hperm
    rw [hperm.symm.eq_nil]
  · have hperm := sortByStart_perm rs
    rw [hs] at hperm
    have hmem : ∀ x, x ∈ (r :: rest) ↔ x ∈ rs := fun x => hperm.mem_iff
    have hwf2 : ∀ x ∈ r :: rest, x.start ≤ x.stop :=
      fun x hx => hwf x ((hmem x).1 hx)
    have hp := sortByStart_pairwise rs
    rw [hs] at hp
    rcases List.pairwise_cons.1 hp with ⟨hr_le, hp2⟩
    rw [mergeLoop_covers r rest (hwf2 r (List.mem_cons_self r rest))
      (fun x hx => hwf2 x (List.mem_cons_of_mem r hx)) hr_le hp2 w]
    have : (inWR r w || covers rest w) = covers (r :: rest) w := by simp [covers]
    rw [this, covers_eq_of_mem_iff hmem]

theorem mergeWeekRanges_canonical (rs : List WeekRange)
    (hwf : ∀ r ∈ rs, r.start ≤ r.stop) :
    IsCanonical (mergeWeekRanges rs) := by
  unfold mergeWeekRanges
  rcases hs : sortByStart rs with _ | ⟨r, rest⟩
  · exact ⟨by simp, by simp⟩
  · have hperm := sortByStart_perm rs
    rw [hs] at hperm
    have hwf2 : ∀ x ∈ r :: rest, x.start ≤ x.stop :=
      fun x hx => hwf x (hperm.mem_iff.1 hx)
    exact mergeLoop_canonical r rest (hwf2 r (List.mem_cons_self r rest))
      (fun x hx => hwf2 x (List.mem_cons_of_mem r hx))

theorem canonical_tail {a : WeekRange} {as : List WeekRange}
    (h : IsCanonical (a :: as)) : IsCanonical as :=
  ⟨fun r hr => h.1 r (List.mem_cons_of_mem a hr), h.2.tail⟩

theorem canonical_starts_lt : ∀ {a : WeekRange} {as : List WeekRange},
    IsCanonical (a :: as) → ∀ c ∈ as, a.stop + 1 < c.start := by
  intro a as
  induction as generalizing a with
  | nil => intro _ c hc; cases hc
  | cons b bs ih =>
    intro h c hc
    have hab : a.stop + 1 < b.start := (List.chain'_cons.1 h.2).1
    rcases List.mem_cons.1 hc with rfl | hc
    · exact hab
    · have hb : IsCanonical (b :: bs) := canonical_tail h
      have hbc := ih hb c hc
      have hwb : b.start ≤ b.stop := hb.1 b (List.mem_cons_self b bs)
      omega

theorem canonical_covered_lb {b : WeekRange} {bs : List WeekRange}
    (h : IsCanonical (b :: bs)) {w : Nat}
    (hw : covers (b :: bs) w = true) : b.start ≤ w := by
  simp only [covers, List.any_eq_true, inWR, Bool.and_eq_true, decide_eq_true_eq] at hw
  rcases hw with ⟨r, hr, h1, _⟩
  rcases List.mem_cons.1 hr with rfl | hr
  · exact h1
  · have := canonical_starts_lt h r hr
    have hwb : b.start ≤ b.stop := h.1 b (List.mem_cons_self b bs)
    omega

theorem covers_self_start {a : WeekRange} {as : List WeekRange}
    (hwa : a.start ≤ a.stop) : covers (a :: as) a.start = true := by
  simp only [covers, List.any_eq_true]
  exact ⟨a, List.mem_cons_self a as, by simp [inWR, hwa]⟩

theorem canonical_unique : ∀ {l1 l2 : List WeekRange},
    IsCanonical l1 → IsCanonical l2 →
    (∀ w, covers l1 w = covers l2 w) → l1 = l2 := by
  intro l1
  induction l1 with
  | nil =>
    intro l2 _ h2 hc
    rcases l2 with _ | ⟨b, bs⟩
    · rfl
    · exfalso
      have hb : covers (b :: bs) b.start = true :=
        covers_self_start (h2.1 b (List.mem_cons_self b bs))
      rw [← hc b.start] at hb
      simp [covers] at hb
  | cons a as ih =>
    intro l2 h1 h2 hc
    rcases l2 with _ | ⟨b, bs⟩
    · exfalso
      have ha : covers (a :: as) a.start = true :=
        covers_self_start (h1.1 a (List.mem_cons_self a as))
      rw [hc a.start] at ha
      simp [covers] at ha
    · have hwa : a.start ≤ a.stop := h1.1 a (List.mem_cons_self a as)
      have hwb : b.start ≤ b.stop := h2.1 b (List.mem_cons_self b bs)
      have hstart : a.start = b.start := by
        have h1a : covers (a :: as) a.start = true := covers_self_start hwa
        have h2b : covers (b :: bs) b.start = true := covers_self_start hwb
        have lb1 := canonical_covered_lb h2 (by rw [← hc]; exact h1a)
        have lb2 := canonical_covered_lb h1 (by rw [hc]; exact h2b)
        omega
      have hstop : a.stop = b.stop := by
        by_contra hne
        have hwlog : ∀ (x y : WeekRange) (xs ys : List WeekRange),
            IsCanonical (x :: xs) → IsCanonical (y :: ys) →
            (∀ w, covers (x :: xs) w = covers (y :: ys) w) →
            x.start = y.start → x.stop < y.stop → False := by
          intro x y xs ys hx hy hcv hst hlt
          have hwx : x.start ≤ x.stop := hx.1 x (List.mem_cons_self x xs)
          have hcov2 : covers (y :: ys) (x.stop + 1) = true := by
            simp only [covers, List.any_eq_true]
            refine ⟨y, List.mem_cons_self y ys, ?_⟩
            simp only [inWR, Bool.and_eq_true, decide_eq_true_eq]
            omega
          have hcov1 : covers (x :: xs) (x.stop + 1) = true := by
            rw [hcv]; exact hcov2
          simp only [covers, List.any_eq_true, inWR, Bool.and_eq_true,
            decide_eq_true_eq] at hcov1
          rcases hcov1 with ⟨r, hr, hr1, hr2⟩
          rcases List.mem_cons.1 hr with rfl | hr
          · omega
          · have := canonical_starts_lt hx r hr
            omega
        rcases Nat.lt_or_ge a.stop b.stop with hlt | hge
        · exact hwlog a b as bs h1 h2 hc hstart hlt
        · have hlt2 : b.stop < a.stop := by omega
          exact hwlog b a bs as h2 h1 (fun w => (hc w).symm) hstart.symm hlt2
      have heq : a = b := by
        rcases a with ⟨a1, a2⟩
        rcases b with ⟨b1, b2⟩
        simp only at hstart hstop
        rw [hstart, hstop]
      subst heq
      have htail : ∀ w, covers as w = covers bs w := by
        intro w
        rcases le_or_lt w a.stop with hw | hw
        · have hf1 : covers as w = false := by
            by_contra hne
            have ht : covers as w = true := by
              cases hcv : covers as w
              · exact absurd hcv hne
              · rfl
            simp only [covers, List.any_eq_true, inWR, Bool.and_eq_true,
              decide_eq_true_eq] at ht
            rcases ht with ⟨r, hr, hr1, _⟩
            have := canonical_starts_lt h1 r hr
            omega
          have hf2 : covers bs w = false := by
            by_contra hne
            have ht : covers bs w = true := by
              cases hcv : covers bs w
              · exact absurd hcv hne
              · rfl
            simp only [covers, List.any_eq_true, inWR, Bool.and_eq_true,
              decide_eq_true_eq] at ht
            rcases ht with ⟨r, hr, hr1, _⟩
            have := canonical_starts_lt h2 r hr
            omega
          rw [hf1, hf2]
        · have hcw := hc w
          have hf : inWR a w = false := by
            simp only [inWR, Bool.and_eq_true]
            simp only [Bool.and_eq_false_iff, decide_eq_false_iff_not]
            right
            omega
          simp only [covers, List.any_cons] at hcw
          rw [show List.any as (fun r => inWR r w) = covers as w from rfl,
            show List.any bs (fun r => inWR r w) = covers bs w from rfl, hf] at hcw
          simpa using hcw
      rw [ih (canonical_tail h1) (canonical_tail h2) htail]

theorem covers_append (l1 l2 : List WeekRange) (w : Nat) :
    covers (l1 ++ l2) w = (covers l1 w || covers l2 w) := by
  simp [covers]

theorem canonical_wf {l : List WeekRange} (h : IsCanonical l) :
    ∀ r ∈ l, r.start ≤ r.stop := h.1

theorem mergeWeekRanges_absorb (A B : List WeekRange)
    (hA : ∀ r ∈ A, r.start ≤ r.stop) (hB : ∀ r ∈ B, r.start ≤ r.stop) :
    mergeWeekRanges (mergeWeekRanges A ++ B) = mergeWeekRanges (A ++ B) := by
  have hMA := mergeWeekRanges_canonical A hA
  have hwfMA : ∀ r ∈ mergeWeekRanges A ++ B, r.start ≤ r.stop := by
    intro r hr
    rcases List.mem_append.1 hr with hr | hr
    · exact hMA.1 r hr
    · exact hB r hr
  have hwfAB : ∀ r ∈ A ++ B, r.start ≤ r.stop := by
    intro r hr
    rcases List.mem_append.1 hr with hr | hr
    · exact hA r hr
    · exact hB r hr
  apply canonical_unique (mergeWeekRanges_canonical _ hwfMA)
    (mergeWeekRanges_canonical _ hwfAB)
  intro w
  rw [mergeWeekRanges_covers _ hwfMA, mergeWeekRanges_covers _ hwfAB,
    covers_append, covers_append, mergeWeekRanges_covers A hA]

theorem mergeWeekRanges_ne_nil {A : List WeekRange} (h : A ≠ []) :
    mergeWeekRanges A ≠ [] := by
  unfold mergeWeekRanges
  rcases hs : sortByStart A with _ | ⟨r, rest⟩
  · exfalso
    have hperm := sortByStart_perm A
    rw [hs] at hperm
    exact h hperm.symm.eq_nil
  · exact mergeLoop_ne_nil r rest

/-- Claim C4: mergeWeekRanges sorts and coalesces overlapping or
adjacent ranges; on well-formed input its output denotes the same set
of weeks, is canonical (sorted, pairwise non-overlapping and
non-adjacent), and is the unique such representation; the two concrete
examples of the specification hold. -/
theorem claim_C4 :
    mergeWeekRanges [⟨1, 6⟩, ⟨7, 8⟩] = [⟨1, 8⟩]
    ∧ mergeWeekRanges [⟨1, 5⟩, ⟨8, 10⟩] = [⟨1, 5⟩, ⟨8, 10⟩]
    ∧ ∀ (rs : List WeekRange), (∀ r ∈ rs, r.start ≤ r.stop) →
        (∀ w, covers (mergeWeekRanges rs) w = covers rs w)
        ∧ IsCanonical (mergeWeekRanges rs)
        ∧ ∀ l, IsCanonical l → (∀ w, covers l w = covers rs w) →
            l = mergeWeekRanges rs := by
  refine ⟨by decide, by decide, ?_⟩
  intro rs hwf
  refine ⟨mergeWeekRanges_covers rs hwf, mergeWeekRanges_canonical rs hwf, ?_⟩
  intro l hl hcov
  exact canonical_unique hl (mergeWeekRanges_canonical rs hwf)
    (fun w => by rw [hcov w, mergeWeekRanges_covers rs hwf])

/-- Witness for claim C4 at a concrete input. -/
theorem claim_C4_witness :
    (∀ r ∈ ([⟨1, 6⟩, ⟨7, 8⟩] : List WeekRange), r.start ≤ r.stop)
    ∧ (∀ w, covers (mergeWeekRanges [⟨1, 6⟩, ⟨7, 8⟩]) w
        = covers [⟨1, 6⟩, ⟨7, 8⟩] w) :=
  ⟨by decide, (claim_C4.2.2 [⟨1, 6⟩, ⟨7, 8⟩] (by decide)).1⟩

theorem mem_firstKeys {x : String} : ∀ {ks : List String}, x ∈ firstKeys ks ↔ x ∈ ks := by
  intro ks
  induction ks with
  | nil => simp [firstKeys]
  | cons a ks ih =>
    simp only [firstKeys, List.mem_cons, List.mem_filter, ih]
    constructor
    · rintro (rfl | ⟨h, _⟩)
      · exact Or.inl rfl
      · exact Or.inr h
    · rintro (rfl | h)
      · exact Or.inl rfl
      · by_cases hx : x = a
        · exact Or.inl hx
        · exact Or.inr ⟨h, by simpa using hx⟩

theorem firstKeys_nodup : ∀ (ks : List String), (firstKeys ks).Nodup := by
  intro ks
  induction ks with
  | nil => simp [firstKeys]
  | cons a ks ih =>
    simp only [firstKeys, List.nodup_cons]
    constructor
    · intro h
      rcases List.mem_filter.1 h with ⟨_, hne⟩
      simp at hne
    · exact ih.filter _

theorem firstKeys_append_singleton (ks : List String) (k : String) :
    firstKeys (ks ++ [k])
      = if k ∈ ks then firstKeys ks else firstKeys ks ++ [k] := by
  induction ks with
  | nil => simp [firstKeys]
  | cons a ks ih =>
    rw [show (a :: ks) ++ [k] = a :: (ks ++ [k]) from rfl,
      show firstKeys (a :: (ks ++ [k]))
        = a :: (firstKeys (ks ++ [k])).filter (fun x => x ≠ a) from rfl, ih]
    by_cases hk : k ∈ ks
    · rw [if_pos hk, if_pos (List.mem_cons_of_mem a hk)]
      rfl
    · rw [if_neg hk]
      by_cases hka : k = a
      · subst hka
        rw [if_pos (List.mem_cons_self k ks), List.filter_append]
        simp [firstKeys]
      · rw [if_neg (by simp [hka, hk]), List.filter_append]
        simp [firstKeys, hka]

theorem dedupStep_not_mem : ∀ (acc : List (String × FixedTimeSlot)) (s : FixedTimeSlot),
    (∀ pr ∈ acc, pr.1 ≠ slotKey s) → dedupStep acc s = acc ++ [(slotKey s, s)] := by
  intro acc s h
  induction acc with
  | nil => rfl
  | cons pr rest ih =>
    rcases pr with ⟨k0, t0⟩
    have hk0 : k0 ≠ slotKey s := h (k0, t0) (List.mem_cons_self _ _)
    simp only [dedupStep, if_neg hk0, List.cons_append]
    rw [ih (fun pr hpr => h pr (List.mem_cons_of_mem _ hpr))]

theorem dedupStep_keys (acc : List (String × FixedTimeSlot)) (s : FixedTimeSlot) :
    (dedupStep acc s).map Prod.fst
      = if slotKey s ∈ acc.map Prod.fst then acc.map Prod.fst
        else acc.map Prod.fst ++ [slotKey s] := by
  induction acc with
  | nil => simp [dedupStep]
  | cons pr rest ih =>
    rcases pr with ⟨k0, t0⟩
    by_cases hk0 : k0 = slotKey s
    · subst hk0
      simp [dedupStep]
    · simp only [dedupStep, if_neg hk0, List.map_cons, ih]
      by_cases hmem : slotKey s ∈ rest.map Prod.fst
      · rw [if_pos hmem, if_pos (by simp [hmem])]
      · rw [if_neg hmem, if_neg (by
          simp only [List.mem_cons, not_or]
          exact ⟨fun h => hk0 h.symm, hmem⟩)]
        simp

theorem dedup_fold_keys (p : List FixedTimeSlot) :
    ((p.foldl dedupStep []).map Prod.fst) = firstKeys (p.map slotKey) := by
  induction p using List.reverseRecOn with
  | nil => rfl
  | append_singleton p s ih =>
    rw [List.foldl_append, List.foldl_cons, List.foldl_nil, dedupStep_keys, ih,
      List.map_append, List.map_singleton, firstKeys_append_singleton]
    by_cases hmem : slotKey s ∈ p.map slotKey
    · rw [if_pos (mem_firstKeys.2 hmem), if_pos hmem]
    · rw [if_neg (fun h => hmem (mem_firstKeys.1 h)), if_neg hmem]

theorem dedupStep_entry : ∀ (acc : List (String × FixedTimeSlot)) (s : FixedTimeSlot),
    (acc.map Prod.fst).Nodup →
    ∀ k t, (k, t) ∈ dedupStep acc s →
      (k ≠ slotKey s ∧ (k, t) ∈ acc)
      ∨ (k = slotKey s ∧
          ((∃ t0, (k, t0) ∈ acc ∧ t = mergeInto t0 s)
            ∨ ((∀ pr ∈ acc, pr.1 ≠ k) ∧ t = s))) := by
  intro acc s
  induction acc with
  | nil =>
    intro _ k t h
    simp only [dedupStep, List.mem_singleton, Prod.mk.injEq] at h
    exact Or.inr ⟨h.1, Or.inr ⟨by simp, h.2⟩⟩
  | cons pr rest ih =>
    rcases pr with ⟨k0, t0⟩
    intro hnd k t h
    simp only [List.map_cons] at hnd
    rcases List.nodup_cons.1 hnd with ⟨hk0nd, hndrest⟩
    by_cases hk0 : k0 = slotKey s
    · subst hk0
      simp only [dedupStep, if_pos rfl] at h
      rcases List.mem_cons.1 h with heq | hmem
      · rcases Prod.mk.inj heq with ⟨rfl, rfl⟩
        exact Or.inr ⟨rfl, Or.inl ⟨t0, List.mem_cons_self _ _, rfl⟩⟩
      · by_cases hk : k = slotKey s
        · subst hk
          exact absurd (List.mem_map_of_mem Prod.fst hmem) hk0nd
        · exact Or.inl ⟨hk, List.mem_cons_of_mem _ hmem⟩
    · simp only [dedupStep, if_neg hk0] at h
      rcases List.mem_cons.1 h with heq | hmem
      · rcases Prod.mk.inj heq with ⟨rfl, rfl⟩
        exact Or.inl ⟨hk0, List.mem_cons_self _ _⟩
      · rcases ih hndrest k t hmem with ⟨hne, hmem2⟩ | ⟨heq2, hrest⟩
        · exact Or.inl ⟨hne, List.mem_cons_of_mem _ hmem2⟩
        · refine Or.inr ⟨heq2, ?_⟩
          rcases hrest with ⟨u, hu, hteq⟩ | ⟨hnone, hteq⟩
          · exact Or.inl ⟨u, List.mem_cons_of_mem _ hu, hteq⟩
          · refine Or.inr ⟨?_, hteq⟩
            intro pr hpr
            rcases List.mem_cons.1 hpr with rfl | hpr
            · simpa [heq2] using hk0
            · exact hnone pr hpr

theorem groupSlots_append_singleton (p : List FixedTimeSlot) (s : FixedTimeSlot) (k : String) :
    groupSlots (p ++ [s]) k
      = groupSlots p k ++ (if slotKey s = k then [s] else []) := by
  unfold groupSlots
  rw [List.filter_append]
  congr 1
  by_cases h : slotKey s = k <;> simp [h]

theorem groupSlots_eq_nil_of_not_mem {p : List FixedTimeSlot} {k : String}
    (h : k ∉ p.map slotKey) : groupSlots p k = [] := by
  unfold groupSlots
  rw [List.filter_eq_nil_iff]
  intro a ha
  simp only [decide_eq_true_eq]
  intro he
  exact h (he ▸ List.mem_map_of_mem slotKey ha)

theorem groupSlots_ne_nil_of_mem {p : List FixedTimeSlot} {k : String}
    (h : k ∈ p.map slotKey) : groupSlots p k ≠ [] := by
  rcases List.mem_map.1 h with ⟨a, ha, rfl⟩
  intro hnil
  have : a ∈ groupSlots p (slotKey a) := by
    unfold groupSlots
    rw [List.mem_filter]
    exact ⟨ha, by simp⟩
  rw [hnil] at this
  cases this

theorem combineGroup_append_singleton {g : List FixedTimeSlot} (s : FixedTimeSlot)
    (h : g ≠ []) : combineGroup (g ++ [s]) = mergeInto (combineGroup g) s := by
  rcases g with _ | ⟨hd, tl⟩
  · exact absurd rfl h
  · unfold combineGroup
    simp [List.foldl_append]

theorem assoc_eq_map : ∀ (l : List (String × FixedTimeSlot)) (ks : List String)
    (F : String → FixedTimeSlot),
    l.map Prod.fst = ks → (∀ pr ∈ l, pr.2 = F pr.1) →
    l = ks.map (fun k => (k, F k)) := by
  intro l
  induction l with
  | nil =>
    intro ks F hk _
    rw [← hk]
    rfl
  | cons pr rest ih =>
    intro ks F hk he
    rcases pr with ⟨k0, t0⟩
    rcases ks with _ | ⟨k1, ks⟩
    · cases hk
    · rcases List.cons.inj hk with ⟨rfl, hk2⟩
      rw [List.map_cons]
      have h0 : t0 = F k0 := he (k0, t0) (List.mem_cons_self _ _)
      rw [ih ks F hk2 (fun pr hpr => he pr (List.mem_cons_of_mem _ hpr)), h0]

theorem dedup_fold_entries (p : List FixedTimeSlot) :
    ∀ k t, (k, t) ∈ p.foldl dedupStep [] → t = combineGroup (groupSlots p k) := by
  induction p using List.reverseRecOn with
  | nil => intro k t h; cases h
  | append_singleton p s ih =>
    intro k t h
    rw [List.foldl_append, List.foldl_cons, List.foldl_nil] at h
    have hnd : ((p.foldl dedupStep []).map Prod.fst).Nodup := by
      rw [dedup_fold_keys]; exact firstKeys_nodup _
    rcases dedupStep_entry _ s hnd k t h with ⟨hne, hmem⟩ | ⟨heq, hrest⟩
    · rw [groupSlots_append_singleton, if_neg (fun hc => hne hc.symm), List.append_nil]
      exact ih k t hmem
    · subst heq
      rcases hrest with ⟨t0, ht0, rfl⟩ | ⟨hnone, hts⟩
      · have hkmem : slotKey s ∈ p.map slotKey := by
          have : slotKey s ∈ (p.foldl dedupStep []).map Prod.fst :=
            List.mem_map_of_mem Prod.fst ht0
          rw [dedup_fold_keys] at this
          exact mem_firstKeys.1 this
        rw [groupSlots_append_singleton, if_pos rfl,
          combineGroup_append_singleton s (groupSlots_ne_nil_of_mem hkmem),
          ← ih (slotKey s) t0 ht0]
      · have hkmem : slotKey s ∉ p.map slotKey := by
          intro hc
          rcases List.mem_map.1 hc with ⟨a, ha, hak⟩
          have : a ∈ groupSlots p (slotKey s) := by
            unfold groupSlots
            rw [List.mem_filter]
            exact ⟨ha, by simp [hak]⟩
          have hgem : (slotKey s) ∈ (p.foldl dedupStep []).map Prod.fst := by
            rw [dedup_fold_keys]
            exact mem_firstKeys.2 hc
          rcases List.mem_map.1 hgem with ⟨pr, hpr, hpr1⟩
          exact hnone pr hpr hpr1
        rw [hts, groupSlots_append_singleton, if_pos rfl,
          groupSlots_eq_nil_of_not_mem hkmem]
        rfl

theorem dedup_fold_eq (p : List FixedTimeSlot) :
    p.foldl dedupStep []
      = (firstKeys (p.map slotKey)).map
          (fun k => (k, combineGroup (groupSlots p k))) := by
  apply assoc_eq_map _ _ _ (dedup_fold_keys p)
  intro pr hpr
  exact dedup_fold_entries p pr.1 pr.2 hpr

theorem mergeInto_of_none {e s : FixedTimeSlot} (h : s.weeks = none) :
    mergeInto e s = e := by
  unfold mergeInto
  rw [h]

theorem mergeInto_of_empty {e s : FixedTimeSlot} {ws : List WeekRange}
    (h : s.weeks = some ws) (he : ws.isEmpty = true) : mergeInto e s = e := by
  unfold mergeInto
  rw [h]
  simp [he]

theorem mergeInto_of_first {e s : FixedTimeSlot} {ws : List WeekRange}
    (h : s.weeks = some ws) (hne : ws.isEmpty = false) (he : e.weeks = none) :
    mergeInto e s = { e with weeks := some ws } := by
  have hne2 : ws ≠ [] := by simpa [List.isEmpty_iff] using hne
  simp [mergeInto, h, hne2, he]

theorem mergeInto_of_first_empty {e s : FixedTimeSlot} {ws : List WeekRange}
    (h : s.weeks = some ws) (hne : ws.isEmpty = false) (he : e.weeks = some []) :
    mergeInto e s = { e with weeks := some ws } := by
  have hne2 : ws ≠ [] := by simpa [List.isEmpty_iff] using hne
  simp [mergeInto, h, hne2, he]

theorem mergeInto_of_merge {e s : FixedTimeSlot} {ws ews : List WeekRange}
    (h : s.weeks = some ws) (hne : ws.isEmpty = false) (he : e.weeks = some ews)
    (hene : ews.isEmpty = false) :
    mergeInto e s = { e with weeks := some (mergeWeekRanges (ews ++ ws)) } := by
  have hne2 : ws ≠ [] := by simpa [List.isEmpty_iff] using hne
  have hene2 : ews ≠ [] := by simpa [List.isEmpty_iff] using hene
  simp [mergeInto, h, hne2, he, hene2]

theorem mergeInto_fields (e s : FixedTimeSlot) :
    (mergeInto e s).dayOfWeek = e.dayOfWeek
    ∧ (mergeInto e s).timeSlotIds = e.timeSlotIds
    ∧ (mergeInto e s).location = e.location := by
  rcases hsw : s.weeks with _ | ws
  · rw [mergeInto_of_none hsw]
    exact ⟨rfl, rfl, rfl⟩
  · rcases hws : ws.isEmpty with _ | _
    · rcases hew : e.weeks with _ | ews
      · rw [mergeInto_of_first hsw hws hew]
        exact ⟨rfl, rfl, rfl⟩
      · rcases hene : ews.isEmpty with _ | _
        · rw [mergeInto_of_merge hsw hws hew hene]
          exact ⟨rfl, rfl, rfl⟩
        · have : ews = [] := by simpa [List.isEmpty_iff] using hene
          subst this
          rw [mergeInto_of_first_empty hsw hws hew]
          exact ⟨rfl, rfl, rfl⟩
    · rw [mergeInto_of_empty hsw hws]
      exact ⟨rfl, rfl, rfl⟩

theorem foldl_mergeInto_fields (l : List FixedTimeSlot) (e : FixedTimeSlot) :
    (l.foldl mergeInto e).dayOfWeek = e.dayOfWeek
    ∧ (l.foldl mergeInto e).timeSlotIds = e.timeSlotIds
    ∧ (l.foldl mergeInto e).location = e.location := by
  induction l generalizing e with
  | nil => exact ⟨rfl, rfl, rfl⟩
  | cons s l ih =>
    rcases ih (mergeInto e s) with ⟨h1, h2, h3⟩
    rcases mergeInto_fields e s with ⟨g1, g2, g3⟩
    exact ⟨h1.trans g1, h2.trans g2, h3.trans g3⟩

theorem weekContribs_append (g1 g2 : List FixedTimeSlot) :
    weekContribs (g1 ++ g2) = weekContribs g1 ++ weekContribs g2 := by
  unfold weekContribs
  rw [List.filterMap_append]

theorem weekContribs_singleton_none {s : FixedTimeSlot} (h : s.weeks = none) :
    weekContribs [s] = [] := by
  unfold weekContribs
  simp [List.filterMap_cons, h]

theorem weekContribs_singleton_empty {s : FixedTimeSlot} {ws : List WeekRange}
    (h : s.weeks = some ws) (he : ws.isEmpty = true) : weekContribs [s] = [] := by
  have he2 : ws = [] := by simpa [List.isEmpty_iff] using he
  simp [weekContribs, List.filterMap_cons, h, he2]

theorem weekContribs_singleton_some {s : FixedTimeSlot} {ws : List WeekRange}
    (h : s.weeks = some ws) (he : ws.isEmpty = false) : weekContribs [s] = [ws] := by
  have he2 : ws ≠ [] := by simpa [List.isEmpty_iff] using he
  simp [weekContribs, List.filterMap_cons, h, he2]

theorem weekContribs_mem {g : List FixedTimeSlot} {ws : List WeekRange}
    (h : ws ∈ weekContribs g) : (∃ s ∈ g, s.weeks = some ws) ∧ ws ≠ [] := by
  unfold weekContribs at h
  rcases List.mem_filterMap.1 h with ⟨s, hs, hf⟩
  rcases hsw : s.weeks with _ | ws0
  · rw [hsw] at hf
    simp at hf
  · rw [hsw] at hf
    simp at hf
    rcases hf with ⟨hne, rfl⟩
    exact ⟨⟨s, hs, hsw⟩, hne⟩

theorem weekContribs_nil_head {h0 : FixedTimeSlot} {t0 : List FixedTimeSlot}
    (h : weekContribs (h0 :: t0) = []) :
    h0.weeks = none ∨ h0.weeks = some [] := by
  unfold weekContribs at h
  rw [List.filterMap_cons] at h
  rcases hsw : h0.weeks with _ | ws
  · exact Or.inl rfl
  · by_cases hws : ws = []
    · right
      rw [hws]
    · exfalso
      rw [hsw] at h
      simp [hws] at h

theorem isEmpty_false_of_ne_nil {α : Type} {l : List α} (h : l ≠ []) :
    l.isEmpty = false := by
  cases l
  · exact absurd rfl h
  · rfl

theorem declWeeks_nil_case {G : List FixedTimeSlot}
    (hc : weekContribs G = []) : declWeeks G = (G.headD defaultSlot).weeks := by
  unfold declWeeks
  rw [hc]

theorem declWeeks_one {G : List FixedTimeSlot} {ws : List WeekRange}
    (hc : weekContribs G = [ws]) : declWeeks G = some ws := by
  unfold declWeeks
  rw [hc]

theorem declWeeks_many {G : List FixedTimeSlot} {c1 c2 : List WeekRange}
    {cs : List (List WeekRange)} (hc : weekContribs G = c1 :: c2 :: cs) :
    declWeeks G = some (mergeWeekRanges ((c1 :: c2 :: cs).flatten)) := by
  unfold declWeeks
  rw [hc]

theorem weekContribs_wf {g : List FixedTimeSlot}
    (hwf : ∀ s ∈ g, ∀ ws, s.weeks = some ws → ∀ r ∈ ws, r.start ≤ r.stop) :
    ∀ ws ∈ weekContribs g, ∀ r ∈ ws, r.start ≤ r.stop := by
  intro ws hws r hr
  rcases (weekContribs_mem hws).1 with ⟨s, hs, hsew⟩
  exact hwf s hs ws hsew r hr

theorem flatten_wf {L : List (List WeekRange)}
    (h : ∀ ws ∈ L, ∀ r ∈ ws, r.start ≤ r.stop) :
    ∀ r ∈ L.flatten, r.start ≤ r.stop := by
  intro r hr
  rcases List.mem_flatten.1 hr with ⟨ws, hws, hrw⟩
  exact h ws hws r hrw

theorem combineGroup_weeks : ∀ (g : List FixedTimeSlot),
    (∀ s ∈ g, ∀ ws, s.weeks = some ws → ∀ r ∈ ws, r.start ≤ r.stop) →
    (combineGroup g).weeks = declWeeks g := by
  intro g
  induction g using List.reverseRecOn with
  | nil => intro _; rfl
  | append_singleton g s ih =>
    intro hwf
    have hwfg : ∀ x ∈ g, ∀ ws, x.weeks = some ws → ∀ r ∈ ws, r.start ≤ r.stop :=
      fun x hx => hwf x (List.mem_append_left _ hx)
    have hwfs : ∀ ws, s.weeks = some ws → ∀ r ∈ ws, r.start ≤ r.stop :=
      hwf s (List.mem_append_right _ (List.mem_singleton.2 rfl))
    rcases g with _ | ⟨h0, t0⟩
    · rw [List.nil_append]
      show s.weeks = declWeeks [s]
      rcases hsw : s.weeks with _ | ws
      · rw [declWeeks_nil_case (weekContribs_singleton_none hsw)]
        exact hsw.symm
      · by_cases hwe : ws.isEmpty = true
        · rw [declWeeks_nil_case (weekContribs_singleton_empty hsw hwe)]
          exact hsw.symm
        · have hwf2 : ws.isEmpty = false := by
            cases hb : ws.isEmpty
            · rfl
            · exact absurd hb hwe
          rw [declWeeks_one (weekContribs_singleton_some hsw hwf2)]
    · rw [combineGroup_append_singleton s (by simp)]
      have he := ih hwfg
      rcases hsw : s.weeks with _ | ws
      · rw [mergeInto_of_none hsw, he]
        have hc2 : weekContribs ((h0 :: t0) ++ [s]) = weekContribs (h0 :: t0) := by
          rw [weekContribs_append, weekContribs_singleton_none hsw, List.append_nil]
        rcases hcg : weekContribs (h0 :: t0) with _ | ⟨c1, cs⟩
        · rw [declWeeks_nil_case (hc2.trans hcg), declWeeks_nil_case hcg]
          rfl
        · rcases cs with _ | ⟨c2, cs2⟩
          · rw [declWeeks_one (hc2.trans hcg), declWeeks_one hcg]
          · rw [declWeeks_many (hc2.trans hcg), declWeeks_many hcg]
      · by_cases hwe : ws.isEmpty = true
        · rw [mergeInto_of_empty hsw hwe, he]
          have hc2 : weekContribs ((h0 :: t0) ++ [s]) = weekContribs (h0 :: t0) := by
            rw [weekContribs_append, weekContribs_singleton_empty hsw hwe,
              List.append_nil]
          rcases hcg : weekContribs (h0 :: t0) with _ | ⟨c1, cs⟩
          · rw [declWeeks_nil_case (hc2.trans hcg), declWeeks_nil_case hcg]
            rfl
          · rcases cs with _ | ⟨c2, cs2⟩
            · rw [declWeeks_one (hc2.trans hcg), declWeeks_one hcg]
            · rw [declWeeks_many (hc2.trans hcg), declWeeks_many hcg]
        · have hwf2 : ws.isEmpty = false := by
            cases hb : ws.isEmpty
            · rfl
            · exact absurd hb hwe
          have hc2 : weekContribs ((h0 :: t0) ++ [s])
              = weekContribs (h0 :: t0) ++ [ws] := by
            rw [weekContribs_append, weekContribs_singleton_some hsw hwf2]
          rcases hcg : weekContribs (h0 :: t0) with _ | ⟨c1, cs⟩
          · have hdg := declWeeks_nil_case hcg
            rw [hdg] at he
            have hTarget : declWeeks ((h0 :: t0) ++ [s]) = some ws :=
              declWeeks_one (by rw [hc2, hcg]; rfl)
            rcases weekContribs_nil_head hcg with hh | hh
            · rw [mergeInto_of_first hsw hwf2 (he.trans hh), hTarget]
            · rw [mergeInto_of_first_empty hsw hwf2 (he.trans hh), hTarget]
          · rcases cs with _ | ⟨c2, cs2⟩
            · have hdg := declWeeks_one hcg
              rw [hdg] at he
              have hc1ne : c1 ≠ [] :=
                (@weekContribs_mem (h0 :: t0) c1
                  (by rw [hcg]; exact List.mem_singleton.2 rfl)).2
              rw [mergeInto_of_merge hsw hwf2 he (isEmpty_false_of_ne_nil hc1ne)]
              rw [declWeeks_many (show weekContribs ((h0 :: t0) ++ [s])
                = c1 :: ws :: [] from by rw [hc2, hcg]; rfl)]
              simp
            · have hdg := declWeeks_many hcg
              rw [hdg] at he
              have hc1ne : c1 ≠ [] :=
                (@weekContribs_mem (h0 :: t0) c1
                  (by rw [hcg]; exact List.mem_cons_self _ _)).2
              have hflne : (c1 :: c2 :: cs2).flatten ≠ [] := by
                simp only [List.flatten_cons]
                intro hcontra
                rcases List.append_eq_nil.1 hcontra with ⟨h1, _⟩
                exact hc1ne h1
              have hME := isEmpty_false_of_ne_nil (mergeWeekRanges_ne_nil hflne)
              rw [mergeInto_of_merge hsw hwf2 he hME]
              rw [declWeeks_many (show weekContribs ((h0 :: t0) ++ [s])
                = c1 :: c2 :: (cs2 ++ [ws]) from by rw [hc2, hcg]; rfl)]
              have hfl : (c1 :: c2 :: (cs2 ++ [ws])).flatten
                  = (c1 :: c2 :: cs2).flatten ++ ws := by
                simp [List.flatten_append, List.append_assoc]
              rw [hfl]
              have hwfF : ∀ r ∈ (c1 :: c2 :: cs2).flatten, r.start ≤ r.stop :=
                flatten_wf (by rw [← hcg]; exact weekContribs_wf hwfg)
              rw [mergeWeekRanges_absorb _ _ hwfF (hwfs ws hsw)]

theorem combineGroup_eq_declSlot (slots : List FixedTimeSlot) (k : String)
    (hwf : ∀ s ∈ slots, ∀ ws, s.weeks = some ws → ∀ r ∈ ws, r.start ≤ r.stop) :
    combineGroup (groupSlots slots k) = declSlot slots k := by
  have hwfg : ∀ s ∈ groupSlots slots k, ∀ ws, s.weeks = some ws →
      ∀ r ∈ ws, r.start ≤ r.stop :=
    fun s hs => hwf s (List.mem_filter.1 hs).1
  have hw : (combineGroup (groupSlots slots k)).weeks = declWeeks (groupSlots slots k) :=
    combineGroup_weeks _ hwfg
  have hd : (combineGroup (groupSlots slots k)).dayOfWeek
      = ((groupSlots slots k).headD defaultSlot).dayOfWeek :=
    (foldl_mergeInto_fields _ _).1
  have hi : (combineGroup (groupSlots slots k)).timeSlotIds
      = ((groupSlots slots k).headD defaultSlot).timeSlotIds :=
    (foldl_mergeInto_fields _ _).2.1
  have hl : (combineGroup (groupSlots slots k)).location
      = ((groupSlots slots k).headD defaultSlot).location :=
    (foldl_mergeInto_fields _ _).2.2
  have heta : combineGroup (groupSlots slots k)
      = { dayOfWeek := (combineGroup (groupSlots slots k)).dayOfWeek,
          timeSlotIds := (combineGroup (groupSlots slots k)).timeSlotIds,
          weeks := (combineGroup (groupSlots slots k)).weeks,
          location := (combineGroup (groupSlots slots k)).location } := rfl
  rw [heta, hd, hi, hl, hw]
  rfl

/-- Claim C3 (amended): deduplicateTimeSlots groups slots by the key
(dayOfWeek, timeSlotIds joined in their given order, location-or-empty)
— the period ids are not sorted first — and returns one slot per
distinct key in first-seen order, preserving the first-seen values of
every field other than weeks.  The weeks of a group are the non-empty
week lists of its slots combined left to right: none leaves the
first-seen weeks value (undefined stays undefined), exactly one is
kept verbatim (not passed through the merge), and two or more are
concatenated and merged.  The concrete example merges {1,6} and {7,8}
into [{1,8}]. -/
theorem claim_C3 :
    (∀ (slots : List FixedTimeSlot),
      (∀ s ∈ slots, ∀ ws, s.weeks = some ws → ∀ r ∈ ws, r.start ≤ r.stop) →
      deduplicateTimeSlots slots
        = (firstKeys (slots.map slotKey)).map (declSlot slots))
    ∧ deduplicateTimeSlots [slotC3a, slotC3b]
        = [{ dayOfWeek := 1, timeSlotIds := ["5", "6"], weeks := some [⟨1, 8⟩],
             location := some "立人楼B411" }] := by
  constructor
  · intro slots hwf
    unfold deduplicateTimeSlots
    rw [dedup_fold_eq, List.map_map]
    apply List.map_congr_left
    intro k _
    exact combineGroup_eq_declSlot slots k hwf
  · decide

/-- Counterexample to claim C3 as stated: the code's key does not sort
the period ids, so two slots equal up to the order of timeSlotIds (and
sharing the spec's sorted key) stay distinct; and a group with exactly
one weeks list keeps it verbatim instead of passing it through the
week-range merge. -/
theorem claim_C3_counterexample :
    specSlotKey slotC3x = specSlotKey slotC3y
    ∧ slotC3x.dayOfWeek = slotC3y.dayOfWeek
    ∧ slotC3x.location = slotC3y.location
    ∧ (deduplicateTimeSlots [slotC3x, slotC3y]).length = 2
    ∧ deduplicateTimeSlots [slotC3z] = [slotC3z]
    ∧ mergeWeekRanges [⟨7, 8⟩, ⟨1, 6⟩] = [⟨1, 8⟩] := by
  refine ⟨by decide, by decide, by decide, by decide, by decide, by decide⟩

/-- Witness for claim C3 at a concrete input. -/
theorem claim_C3_witness :
    (∀ s ∈ [slotC3a, slotC3b], ∀ ws, s.weeks = some ws →
      ∀ r ∈ ws, r.start ≤ r.stop)
    ∧ deduplicateTimeSlots [slotC3a, slotC3b]
        = (firstKeys ([slotC3a, slotC3b].map slotKey)).map
            (declSlot [slotC3a, slotC3b]) :=
  ⟨by decide, claim_C3.1 [slotC3a, slotC3b] (by decide)⟩

theorem hasWeekOverlap_symm (w1 w2 : Option (List WeekRange)) :
    hasWeekOverlap w1 w2 = hasWeekOverlap w2 w1 := by
  rcases w1 with _ | ws1 <;> rcases w2 with _ | ws2 <;> try rfl
  show (if (ws1.isEmpty || ws2.isEmpty) = true then true
        else ws1.any fun r1 => ws2.any fun r2 =>
          decide (r1.start ≤ r2.stop) && decide (r1.stop ≥ r2.start))
      = (if (ws2.isEmpty || ws1.isEmpty) = true then true
        else ws2.any fun r1 => ws1.any fun r2 =>
          decide (r1.start ≤ r2.stop) && decide (r1.stop ≥ r2.start))
  rw [Bool.or_comm]
  by_cases h : ws2.isEmpty || ws1.isEmpty
  · rw [if_pos h, if_pos h]
  · rw [if_neg h, if_neg h]
    apply bool_ext
    simp only [List.any_eq_true, Bool.and_eq_true, decide_eq_true_eq]
    constructor
    · rintro ⟨r1, h1, r2, h2, ha, hb⟩
      exact ⟨r2, h2, r1, h1, hb, ha⟩
    · rintro ⟨r2, h2, r1, h1, ha, hb⟩
      exact ⟨r1, h1, r2, h2, hb, ha⟩

theorem innerConflictLoop_fst (wsOf : Nat → Option (List WeekRange)) (i : Nat) :
    ∀ (js : List Nat) (c : List Nat),
      (innerConflictLoop wsOf i js c).1
        = js.any (fun j => hasWeekOverlap (wsOf i) (wsOf j)) := by
  intro js
  induction js with
  | nil => intro c; rfl
  | cons j rest ih =>
    intro c
    unfold innerConflictLoop
    by_cases h : hasWeekOverlap (wsOf i) (wsOf j) = true
    · simp [h, ih]
    · simp only [Bool.not_eq_true] at h
      simp [h, ih]

theorem innerConflictLoop_mem (wsOf : Nat → Option (List WeekRange)) (i : Nat) :
    ∀ (js : List Nat) (c : List Nat) (k : Nat),
      (k ∈ (innerConflictLoop wsOf i js c).2
        ↔ k ∈ c ∨ (k ∈ js ∧ hasWeekOverlap (wsOf i) (wsOf k) = true)) := by
  intro js
  induction js with
  | nil =>
    intro c k
    simp [innerConflictLoop]
  | cons j rest ih =>
    intro c k
    unfold innerConflictLoop
    by_cases h : hasWeekOverlap (wsOf i) (wsOf j) = true
    · simp only [h, if_true, ih]
      have hc : k ∈ (if c.contains j then c else c ++ [j])
          ↔ k ∈ c ∨ k = j := by
        by_cases hj : c.contains j
        · rw [if_pos hj]
          constructor
          · exact Or.inl
          · rintro (hk | rfl)
            · exact hk
            · simpa using hj
        · rw [if_neg hj]
          simp
      rw [hc]
      constructor
      · rintro ((hk | rfl) | ⟨hk, ho⟩)
        · exact Or.inl hk
        · exact Or.inr ⟨List.mem_cons_self _ _, h⟩
        · exact Or.inr ⟨List.mem_cons_of_mem _ hk, ho⟩
      · rintro (hk | ⟨hk, ho⟩)
        · exact Or.inl (Or.inl hk)
        · rcases List.mem_cons.1 hk with rfl | hk
          · exact Or.inl (Or.inr rfl)
          · exact Or.inr ⟨hk, ho⟩
    · simp only [Bool.not_eq_true] at h
      simp only [h, Bool.false_eq_true, if_false, ih]
      constructor
      · rintro (hk | ⟨hk, ho⟩)
        · exact Or.inl hk
        · exact Or.inr ⟨List.mem_cons_of_mem _ hk, ho⟩
      · rintro (hk | ⟨hk, ho⟩)
        · exact Or.inl hk
        · rcases List.mem_cons.1 hk with rfl | hk
          · rw [h] at ho
            cases ho
          · exact Or.inr ⟨hk, ho⟩

theorem mem_jrange {i n k : Nat} :
    k ∈ List.range' (i + 1) (n - (i + 1)) ↔ i + 1 ≤ k ∧ k < n := by
  rw [List.mem_range']
  constructor
  · rintro ⟨i0, hi0, rfl⟩
    omega
  · rintro ⟨h1, h2⟩
    exact ⟨k - (i + 1), by omega, by omega⟩

theorem push_if_mem {b : Bool} {c : List Nat} {i m : Nat} :
    (m ∈ (if b && !c.contains i then c ++ [i] else c)
      ↔ m ∈ c ∨ (b = true ∧ m = i)) := by
  by_cases hb : b = true
  · by_cases hc : c.contains i = true
    · rw [hb, hc]
      simp only [Bool.not_true, Bool.and_false, Bool.false_eq_true, if_false]
      constructor
      · exact Or.inl
      · rintro (h | ⟨_, rfl⟩)
        · exact h
        · simpa using hc
    · have hcf : c.contains i = false := by
        cases h : c.contains i
        · rfl
        · exact absurd h hc
      rw [hb, hcf]
      simp [hb]
  · have hbf : b = false := by
      cases b
      · rfl
      · exact absurd rfl hb
    subst hbf
    simp

theorem outerConflictLoop_mem (wsOf : Nat → Option (List WeekRange)) (n : Nat) :
    ∀ (is : List Nat) (c : List Nat) (k : Nat),
      (k ∈ outerConflictLoop wsOf n is c
        ↔ k ∈ c ∨ ∃ i ∈ is,
            ((i < k ∧ k < n ∧ hasWeekOverlap (wsOf i) (wsOf k) = true)
              ∨ (k = i ∧ ∃ j, i < j ∧ j < n
                  ∧ hasWeekOverlap (wsOf i) (wsOf j) = true))) := by
  intro is
  induction is with
  | nil =>
    intro c k
    simp [outerConflictLoop]
  | cons i rest ih =>
    intro c k
    show (k ∈ outerConflictLoop wsOf n rest
        (if (innerConflictLoop wsOf i (List.range' (i + 1) (n - (i + 1))) c).1
              && !(innerConflictLoop wsOf i (List.range' (i + 1) (n - (i + 1))) c).2.contains i
          then (innerConflictLoop wsOf i (List.range' (i + 1) (n - (i + 1))) c).2 ++ [i]
          else (innerConflictLoop wsOf i (List.range' (i + 1) (n - (i + 1))) c).2)) ↔ _
    rw [ih, push_if_mem, innerConflictLoop_mem, innerConflictLoop_fst,
      List.any_eq_true]
    constructor
    · rintro (((hk | ⟨hj, ho⟩) | ⟨⟨j, hj, ho⟩, hki⟩) | ⟨i2, hi2, hC⟩)
      · exact Or.inl hk
      · exact Or.inr ⟨i, List.mem_cons_self _ _,
          Or.inl ⟨(mem_jrange.1 hj).1, (mem_jrange.1 hj).2, ho⟩⟩
      · exact Or.inr ⟨i, List.mem_cons_self _ _,
          Or.inr ⟨hki, j, (mem_jrange.1 hj).1, (mem_jrange.1 hj).2, ho⟩⟩
      · exact Or.inr ⟨i2, List.mem_cons_of_mem _ hi2, hC⟩
    · rintro (hk | ⟨i2, hi2, hC⟩)
      · exact Or.inl (Or.inl (Or.inl hk))
      · rcases List.mem_cons.1 hi2 with rfl | hi2
        · rcases hC with ⟨h1, h2, ho⟩ | ⟨rfl, j, hj1, hj2, ho⟩
          · exact Or.inl (Or.inl (Or.inr ⟨mem_jrange.2 ⟨h1, h2⟩, ho⟩))
          · exact Or.inl (Or.inr ⟨⟨j, mem_jrange.2 ⟨hj1, hj2⟩, ho⟩, rfl⟩)
        · exact Or.inr ⟨i2, hi2, hC⟩

theorem fwci_none_mem (items : List ScheduleItem) (it : ScheduleItem) :
    (it ∈ findWeekConflictingItems items none ↔
      ∃ i j it2, i ≠ j ∧ items.get? i = some it ∧ items.get? j = some it2
        ∧ hasWeekOverlap it.weeks it2.weeks = true) := by
  show (it ∈ (outerConflictLoop (fun i => (items.get? i).bind (fun x => x.weeks))
      items.length (List.range items.length) []).filterMap (fun i => items.get? i)) ↔ _
  rw [List.mem_filterMap]
  constructor
  · rintro ⟨i, hi, hget⟩
    rw [outerConflictLoop_mem] at hi
    rcases hi with hk | ⟨i0, hi0, hC⟩
    · cases hk
    · rcases hC with ⟨h1, h2, ho⟩ | ⟨rfl, j, hj1, hj2, ho⟩
      · have hi0n : i0 < items.length := List.mem_range.1 hi0
        have h2' : items.get? i0 = some (items.get ⟨i0, hi0n⟩) := List.get?_eq_get hi0n
        refine ⟨i, i0, items.get ⟨i0, hi0n⟩, by omega, hget, h2', ?_⟩
        have hwsi : (items.get? i).bind (fun x => x.weeks) = it.weeks := by
          rw [hget]
          rfl
        have hwsj : (items.get? i0).bind (fun x => x.weeks)
            = (items.get ⟨i0, hi0n⟩).weeks := by
          rw [h2']
          rfl
        rw [← hwsi, ← hwsj, hasWeekOverlap_symm]
        exact ho
      · have hjn : j < items.length := hj2
        have h2' : items.get? j = some (items.get ⟨j, hjn⟩) := List.get?_eq_get hjn
        refine ⟨i, j, items.get ⟨j, hjn⟩, by omega, hget, h2', ?_⟩
        have hwsi : (items.get? i).bind (fun x => x.weeks) = it.weeks := by
          rw [hget]
          rfl
        have hwsj : (items.get? j).bind (fun x => x.weeks)
            = (items.get ⟨j, hjn⟩).weeks := by
          rw [h2']
          rfl
        rw [← hwsi, ← hwsj]
        exact ho
  · rintro ⟨i, j, it2, hij, hgi, hgj, ho⟩
    refine ⟨i, ?_, hgi⟩
    rw [outerConflictLoop_mem]
    right
    have hin : i < items.length := by
      rcases List.get?_eq_some.1 hgi with ⟨h, _⟩
      exact h
    have hjn : j < items.length := by
      rcases List.get?_eq_some.1 hgj with ⟨h, _⟩
      exact h
    have hwsi : (items.get? i).bind (fun x => x.weeks) = it.weeks := by
      rw [hgi]
      rfl
    have hwsj : (items.get? j).bind (fun x => x.weeks) = it2.weeks := by
      rw [hgj]
      rfl
    rcases Nat.lt_or_ge j i with hlt | hge
    · refine ⟨j, List.mem_range.2 hjn, Or.inl ⟨hlt, hin, ?_⟩⟩
      rw [hwsj, hwsi, hasWeekOverlap_symm]
      exact ho
    · have hij2 : i < j := by omega
      refine ⟨i, List.mem_range.2 hin, Or.inr ⟨rfl, j, hij2, hjn, ?_⟩⟩
      rw [hwsi, hwsj]
      exact ho

theorem groupInsert_forall {Q : String → ScheduleItem → Prop} :
    ∀ (m : List (String × List ScheduleItem)) (key : String) (item : ScheduleItem),
    (∀ p ∈ m, ∀ x ∈ p.2, Q p.1 x) → Q key item →
    ∀ p ∈ groupInsert m key item, ∀ x ∈ p.2, Q p.1 x := by
  intro m
  induction m with
  | nil =>
    intro key item _ hq p hp x hx
    rcases List.mem_singleton.1 hp with rfl
    rcases List.mem_singleton.1 hx with rfl
    exact hq
  | cons pr rest ih =>
    intro key item hm hq p hp x hx
    rcases pr with ⟨k0, its0⟩
    by_cases hk : k0 = key
    · rw [show groupInsert ((k0, its0) :: rest) key item
        = (k0, its0 ++ [item]) :: rest from by simp [groupInsert, hk]] at hp
      rcases List.mem_cons.1 hp with rfl | hp
      · rcases List.mem_append.1 hx with hx | hx
        · exact hm (k0, its0) (List.mem_cons_self _ _) x hx
        · rcases List.mem_singleton.1 hx with rfl
          rw [hk]
          exact hq
      · exact hm p (List.mem_cons_of_mem _ hp) x hx
    · rw [show groupInsert ((k0, its0) :: rest) key item
        = (k0, its0) :: groupInsert rest key item from by simp [groupInsert, hk]] at hp
      rcases List.mem_cons.1 hp with rfl | hp
      · exact hm (k0, its0) (List.mem_cons_self _ _) x hx
      · exact ih key item (fun q hq2 => hm q (List.mem_cons_of_mem _ hq2)) hq p hp x hx

theorem groups_forall {Q : String → ScheduleItem → Prop} :
    ∀ (l : List ScheduleItem) (m0 : List (String × List ScheduleItem)),
    (∀ p ∈ m0, ∀ x ∈ p.2, Q p.1 x) → (∀ x ∈ l, Q (itemKey x) x) →
    ∀ p ∈ l.foldl (fun m it => groupInsert m (itemKey it) it) m0, ∀ x ∈ p.2, Q p.1 x := by
  intro l
  induction l with
  | nil => intro m0 hm _ p hp; exact hm p hp
  | cons a l ih =>
    intro m0 hm hl p hp
    exact ih (groupInsert m0 (itemKey a) a)
      (groupInsert_forall m0 (itemKey a) a hm (hl a (List.mem_cons_self _ _)))
      (fun x hx => hl x (List.mem_cons_of_mem _ hx)) p hp

theorem conflictOfGroup_some {ts : List TimeSlot} {w : Option Nat}
    {p : String × List ScheduleItem} {c : Conflict}
    (h : conflictOfGroup ts w p = some c) :
    c.items = findWeekConflictingItems p.2 w ∧ 2 ≤ c.items.length := by
  unfold conflictOfGroup at h
  split at h
  · split at h
    · injection h with h2
      subst h2
      refine ⟨rfl, ?_⟩
      show 2 ≤ (findWeekConflictingItems p.2 w).length
      omega
    · cases h
  · cases h

theorem detect_none_mem (schedule : List ScheduleItem) (ts : List TimeSlot)
    (c : Conflict) (h : c ∈ detectTimeConflicts schedule ts none) :
    2 ≤ c.items.length
    ∧ (∀ it ∈ c.items, it ∈ schedule)
    ∧ ∃ k, ∀ it ∈ c.items, itemKey it = k := by
  have h2 : c ∈ ((schedule.filter (fun item =>
      match jsTruthyNat (none : Option Nat), item.weeks with
      | some w, some ws => isWeekInRanges w (some ws)
      | _, _ => true)).foldl (fun m item => groupInsert m (itemKey item) item)
        []).filterMap (conflictOfGroup ts none) := h
  rcases List.mem_filterMap.1 h2 with ⟨p, hp, hf⟩
  rcases conflictOfGroup_some hf with ⟨hitems, hlen⟩
  have hQ := @groups_forall (fun k x =>
      itemKey x = k ∧ x ∈ schedule)
    (schedule.filter (fun item =>
      match jsTruthyNat (none : Option Nat), item.weeks with
      | some w, some ws => isWeekInRanges w (some ws)
      | _, _ => true)) [] (by intro q hq; cases hq)
    (fun x hx => ⟨rfl, (List.mem_filter.1 hx).1⟩) p hp
  refine ⟨hlen, ?_, p.1, ?_⟩
  · intro it hit
    rw [hitems] at hit
    rcases (fwci_none_mem p.2 it).1 hit with ⟨i, _, _, _, hgi, _, _⟩
    exact (hQ it (List.get?_mem hgi)).2
  · intro it hit
    rw [hitems] at hit
    rcases (fwci_none_mem p.2 it).1 hit with ⟨i, _, _, _, hgi, _, _⟩
    exact (hQ it (List.get?_mem hgi)).1

/-- Claim C1: with no target week, items are grouped by
(dayOfWeek, timeSlotId); two items overlap exactly when one has an
absent or empty week list or some ranges intersect; an item appears in
its group's reported conflict exactly when it overlaps another item of
the group (occurrence-wise); a group with no overlapping pair yields no
conflict; every reported conflict has at least two items, all from the
schedule and all sharing one grouping key; and the two concrete
two-course examples produce no conflict and exactly one conflict
containing both items, respectively. -/
theorem claim_C1 :
    (∀ (w1 w2 : Option (List WeekRange)),
      (hasWeekOverlap w1 w2 = true ↔
        (w1 = none ∨ w1 = some [] ∨ w2 = none ∨ w2 = some []
          ∨ ∃ ws1 ws2, w1 = some ws1 ∧ w2 = some ws2
              ∧ ∃ r1 ∈ ws1, ∃ r2 ∈ ws2, r1.start ≤ r2.stop ∧ r2.start ≤ r1.stop)))
    ∧ (∀ (items : List ScheduleItem) (it : ScheduleItem),
        (it ∈ findWeekConflictingItems items none ↔
          ∃ i j it2, i ≠ j ∧ items.get? i = some it ∧ items.get? j = some it2
            ∧ hasWeekOverlap it.weeks it2.weeks = true))
    ∧ (∀ (items : List ScheduleItem),
        (∀ i, i < items.length → ∀ j, j < items.length → i ≠ j →
          hasWeekOverlap ((items.get? i).bind (fun x => x.weeks))
            ((items.get? j).bind (fun x => x.weeks)) = false) →
        findWeekConflictingItems items none = [])
    ∧ (∀ (schedule : List ScheduleItem) (ts : List TimeSlot) (c : Conflict),
        c ∈ detectTimeConflicts schedule ts none →
        2 ≤ c.items.length
        ∧ (∀ it ∈ c.items, it ∈ schedule)
        ∧ ∃ k, ∀ it ∈ c.items, itemKey it = k)
    ∧ detectTimeConflicts [itemC1a, itemC1b] [] none = []
    ∧ (detectTimeConflicts [itemC1c, itemC1d] [] none).map (fun c => c.items)
        = [[itemC1d, itemC1c]] := by
  refine ⟨?_, fwci_none_mem, ?_, detect_none_mem, by decide, by decide⟩
  · intro w1 w2
    rcases w1 with _ | ws1
    · simp [hasWeekOverlap]
    · rcases w2 with _ | ws2
      · simp [hasWeekOverlap]
      · show (if (ws1.isEmpty || ws2.isEmpty) = true then true
            else ws1.any fun r1 => ws2.any fun r2 =>
              decide (r1.start ≤ r2.stop) && decide (r1.stop ≥ r2.start)) = true ↔ _
        by_cases h : (ws1.isEmpty || ws2.isEmpty) = true
        · rw [if_pos h]
          have h12 : ws1.isEmpty = true ∨ ws2.isEmpty = true := by
            cases h1 : ws1.isEmpty
            · cases h2 : ws2.isEmpty
              · rw [h1, h2] at h
                cases h
              · exact Or.inr rfl
            · exact Or.inl rfl
          constructor
          · intro _
            rcases h12 with h1 | h1
            · exact Or.inr (Or.inl (by rw [List.isEmpty_iff.1 h1]))
            · exact Or.inr (Or.inr (Or.inr (Or.inl (by rw [List.isEmpty_iff.1 h1]))))
          · intro _
            rfl
        · rw [if_neg h]
          have hne : ws1 ≠ [] ∧ ws2 ≠ [] := by
            rw [Bool.or_eq_true, not_or] at h
            constructor
            · intro hc
              exact h.1 (by rw [hc]; rfl)
            · intro hc
              exact h.2 (by rw [hc]; rfl)
          constructor
          · intro ha
            simp only [List.any_eq_true, Bool.and_eq_true, decide_eq_true_eq,
              ge_iff_le] at ha
            rcases ha with ⟨r1, hr1, r2, hr2, hA, hB⟩
            exact Or.inr (Or.inr (Or.inr (Or.inr
              ⟨ws1, ws2, rfl, rfl, r1, hr1, r2, hr2, hA, hB⟩)))
          · rintro (hc | hc | hc | hc |
              ⟨ws1a, ws2a, he1, he2, r1, hr1, r2, hr2, hA, hB⟩)
            · cases hc
            · injection hc with hc
              exact absurd hc hne.1
            · cases hc
            · injection hc with hc
              exact absurd hc hne.2
            · injection he1 with he1
              injection he2 with he2
              subst he1
              subst he2
              simp only [List.any_eq_true, Bool.and_eq_true, decide_eq_true_eq,
                ge_iff_le]
              exact ⟨r1, hr1, r2, hr2, hA, hB⟩
  · intro items hno
    rw [List.eq_nil_iff_forall_not_mem]
    intro it hit
    rcases (fwci_none_mem items it).1 hit with ⟨i, j, it2, hij, hgi, hgj, ho⟩
    have hin : i < items.length := by
      rcases List.get?_eq_some.1 hgi with ⟨hh, _⟩
      exact hh
    have hjn : j < items.length := by
      rcases List.get?_eq_some.1 hgj with ⟨hh, _⟩
      exact hh
    have hfalse := hno i hin j hjn hij
    rw [show (items.get? i).bind (fun x => x.weeks) = it.weeks from by rw [hgi]; rfl,
      show (items.get? j).bind (fun x => x.weeks) = it2.weeks from by rw [hgj]; rfl,
      ho] at hfalse
    cases hfalse

/-- Witness for claim C1 at concrete inputs. -/
theorem claim_C1_witness :
    (∀ i, i < [itemC1a, itemC1b].length → ∀ j, j < [itemC1a, itemC1b].length →
      i ≠ j →
      hasWeekOverlap (([itemC1a, itemC1b].get? i).bind (fun x => x.weeks))
        (([itemC1a, itemC1b].get? j).bind (fun x => x.weeks)) = false)
    ∧ findWeekConflictingItems [itemC1a, itemC1b] none = [] :=
  ⟨by decide, claim_C1.2.2.1 [itemC1a, itemC1b] (by decide)⟩

theorem toDigitsCore_eq : ∀ (fuel n : Nat) (ds : List Char), n < fuel →
    Nat.toDigitsCore 10 fuel n ds = natDigits n ++ ds := by
  intro fuel
  induction fuel with
  | zero => intro n ds h; omega
  | succ f ih =>
    intro n ds h
    show (if n / 10 = 0 then Nat.digitChar (n % 10) :: ds
      else Nat.toDigitsCore 10 f (n / 10) (Nat.digitChar (n % 10) :: ds))
        = natDigits n ++ ds
    by_cases h0 : n / 10 = 0
    · have hn : n < 10 := by omega
      rw [if_pos h0, show natDigits n = [Nat.digitChar n] from by
        rw [natDigits]; rw [dif_pos hn], Nat.mod_eq_of_lt hn]
      rfl
    · rw [if_neg h0]
      have h1 : n / 10 < f := by
        have := Nat.div_lt_self (by omega : 0 < n) (by omega : 1 < 10)
        omega
      rw [ih (n / 10) (Nat.digitChar (n % 10) :: ds) h1]
      have hn10 : ¬ n < 10 := by
        intro hc
        exact h0 (Nat.div_eq_of_lt hc)
      rw [show natDigits n = natDigits (n / 10) ++ [Nat.digitChar (n % 10)] from by
        rw [natDigits]; rw [dif_neg hn10]]
      simp

theorem repr_data (n : Nat) : (Nat.repr n).data = natDigits n := by
  show Nat.toDigitsCore 10 (n + 1) n [] = natDigits n
  rw [toDigitsCore_eq (n + 1) n [] (by omega), List.append_nil]

theorem toString_nat_data (n : Nat) : (toString n).data = natDigits n :=
  repr_data n

theorem digitChar_isDigit {m : Nat} (h : m < 10) :
    isDigitChar (Nat.digitChar m) = true := by
  interval_cases m <;> rfl

theorem digitChar_val {m : Nat} (h : m < 10) :
    (Nat.digitChar m).toNat - '0'.toNat = m := by
  interval_cases m <;> rfl

theorem natDigits_digits : ∀ (n : Nat), ∀ c ∈ natDigits n, isDigitChar c = true := by
  intro n
  induction n using Nat.strong_induction_on with
  | _ n ih =>
    rw [natDigits]
    by_cases h : n < 10
    · rw [dif_pos h]
      intro c hc
      rcases List.mem_singleton.1 hc with rfl
      exact digitChar_isDigit h
    · rw [dif_neg h]
      intro c hc
      rcases List.mem_append.1 hc with hc | hc
      · exact ih (n / 10) (Nat.div_lt_self (by omega) (by omega)) c hc
      · rcases List.mem_singleton.1 hc with rfl
        exact digitChar_isDigit (Nat.mod_lt n (by omega))
  
theorem natDigits_ne_nil (n : Nat) : natDigits n ≠ [] := by
  rw [natDigits]
  by_cases h : n < 10
  · rw [dif_pos h]
    simp
  · rw [dif_neg h]
    simp

theorem digitsToNat_natDigits : ∀ (n : Nat), digitsToNat (natDigits n) = n := by
  intro n
  induction n using Nat.strong_induction_on with
  | _ n ih =>
    rw [natDigits]
    by_cases h : n < 10
    · rw [dif_pos h]
      show 10 * 0 + ((Nat.digitChar n).toNat - '0'.toNat) = n
      rw [digitChar_val h]
      omega
    · rw [dif_neg h]
      unfold digitsToNat
      rw [List.foldl_append]
      show 10 * digitsToNat (natDigits (n / 10))
          + ((Nat.digitChar (n % 10)).toNat - '0'.toNat) = n
      rw [digitChar_val (Nat.mod_lt n (by omega)),
        ih (n / 10) (Nat.div_lt_self (by omega) (by omega))]
      omega

theorem takeWhile_append_all {p : Char → Bool} :
    ∀ {l r : List Char}, (∀ c ∈ l, p c = true) →
      (l ++ r).takeWhile p = l ++ r.takeWhile p := by
  intro l
  induction l with
  | nil => intro r _; rfl
  | cons a l ih =>
    intro r h
    rw [List.cons_append, List.takeWhile_cons,
      if_pos (h a (List.mem_cons_self _ _)), ih (fun c hc => h c (List.mem_cons_of_mem _ hc))]
    rfl

theorem dropWhile_append_all {p : Char → Bool} :
    ∀ {l r : List Char}, (∀ c ∈ l, p c = true) →
      (l ++ r).dropWhile p = r.dropWhile p := by
  intro l
  induction l with
  | nil => intro r _; rfl
  | cons a l ih =>
    intro r h
    rw [List.cons_append, List.dropWhile_cons,
      if_pos (h a (List.mem_cons_self _ _)), ih (fun c hc => h c (List.mem_cons_of_mem _ hc))]

theorem matchPeriodAt_build (d1 d2 rest : List Char)
    (h1 : d1 ≠ []) (h1d : ∀ c ∈ d1, isDigitChar c = true)
    (h2 : d2 ≠ []) (h2d : ∀ c ∈ d2, isDigitChar c = true) :
    matchPeriodAt ('第' :: (d1 ++ '-' :: (d2 ++ '节' :: rest)))
      = some (d1, some d2) := by
  simp [matchPeriodAt, takeWhile_append_all h1d, dropWhile_append_all h1d,
    takeWhile_append_all h2d, dropWhile_append_all h2d,
    List.takeWhile_cons, List.dropWhile_cons, isDigitChar, h1, h2]

theorem matchPeriodAt_build1 (d1 rest : List Char)
    (h1 : d1 ≠ []) (h1d : ∀ c ∈ d1, isDigitChar c = true) :
    matchPeriodAt ('第' :: (d1 ++ '节' :: rest)) = some (d1, none) := by
  simp [matchPeriodAt, takeWhile_append_all h1d, dropWhile_append_all h1d,
    List.takeWhile_cons, List.dropWhile_cons, isDigitChar, h1]

theorem scanPeriod_head {c : Char} {cs : List Char}
    {g : List Char × Option (List Char)} (h : matchPeriodAt (c :: cs) = some g) :
    scanPeriod (c :: cs) = some g := by
  unfold scanPeriod
  rw [h]

theorem parseTimeSlots_dash (a b : Nat) :
    parseTimeSlots ("第" ++ toString a ++ "-" ++ toString b ++ "节")
      = (periodRange a b).map (fun i => toString i) := by
  have hdata : ("第" ++ toString a ++ "-" ++ toString b ++ "节").data
      = '第' :: ((toString a).data ++ '-' :: ((toString b).data ++ '节' :: [])) := by
    simp
  unfold parseTimeSlots
  rw [hdata, toString_nat_data, toString_nat_data,
    scanPeriod_head (matchPeriodAt_build (natDigits a) (natDigits b) []
      (natDigits_ne_nil a) (natDigits_digits a)
      (natDigits_ne_nil b) (natDigits_digits b))]
  show (periodRange (digitsToNat (natDigits a)) (digitsToNat (natDigits b))).map
      (fun i => toString i) = (periodRange a b).map (fun i => toString i)
  rw [digitsToNat_natDigits a, digitsToNat_natDigits b]

theorem parseTimeSlots_single (a : Nat) :
    parseTimeSlots ("第" ++ toString a ++ "节") = [toString a] := by
  have hdata : ("第" ++ toString a ++ "节").data
      = '第' :: ((toString a).data ++ '节' :: []) := by
    simp
  unfold parseTimeSlots
  rw [hdata, toString_nat_data,
    scanPeriod_head (matchPeriodAt_build1 (natDigits a) []
      (natDigits_ne_nil a) (natDigits_digits a))]
  show (periodRange (digitsToNat (natDigits a)) (digitsToNat (natDigits a))).map
      (fun i => toString i) = [toString a]
  rw [digitsToNat_natDigits a]
  rw [show periodRange a a = [a] from by
    unfold periodRange
    rw [show a + 1 - a = 1 from by omega]
    rfl]
  rfl

theorem scanPeriod_none : ∀ (cs : List Char),
    (∀ i, i < cs.length → matchPeriodAt (cs.drop i) = none) →
    scanPeriod cs = none := by
  intro cs
  induction cs with
  | nil => intro _; rfl
  | cons c cs ih =>
    intro h
    unfold scanPeriod
    rw [show matchPeriodAt (c :: cs) = none from h 0 (by simp)]
    exact ih (fun i hi => h (i + 1) (by simpa using hi))

theorem periodRange_get (a b i : Nat) :
    (periodRange a b).get? i = if a + i ≤ b then some (a + i) else none := by
  unfold periodRange
  rw [List.get?_map]
  by_cases h : i < b + 1 - a
  · rw [List.get?_range h, if_pos (by omega)]
    rfl
  · rw [List.get?_eq_none.2 (by simpa using by omega : (List.range (b + 1 - a)).length ≤ i),
      if_neg (by omega)]
    rfl

/-- Claim C7: parseTimeSlots maps `第a-b节` to the ascending list of
decimal strings for a..b (`periodRange a b`, whose i-th entry is
`a + i` while `a + i ≤ b`), maps `第a节` to the singleton, and returns
the empty list when no position of the input matches the pattern. -/
theorem claim_C7 :
    (∀ a b : Nat, parseTimeSlots ("第" ++ toString a ++ "-" ++ toString b ++ "节")
        = (periodRange a b).map (fun i => toString i))
    ∧ (∀ a b i : Nat,
        (periodRange a b).get? i = if a + i ≤ b then some (a + i) else none)
    ∧ (∀ a : Nat, parseTimeSlots ("第" ++ toString a ++ "节") = [toString a])
    ∧ (∀ s : String,
        (∀ i, i < s.data.length → matchPeriodAt (s.data.drop i) = none) →
        parseTimeSlots s = [])
    ∧ parseTimeSlots "第5-6节" = ["5", "6"]
    ∧ parseTimeSlots "第5节" = ["5"] := by
  refine ⟨parseTimeSlots_dash, periodRange_get, parseTimeSlots_single, ?_,
    by decide, by decide⟩
  intro s h
  unfold parseTimeSlots
  rw [scanPeriod_none s.data h]

/-- Witness for claim C7 at a concrete input. -/
theorem claim_C7_witness :
    (∀ i, i < ("hello" : String).data.length →
      matchPeriodAt (("hello" : String).data.drop i) = none)
    ∧ parseTimeSlots "hello" = [] :=
  ⟨by decide, claim_C7.2.2.2.1 "hello" (by decide)⟩

/-- Claim C9: a reversed period range `第a-b节` with `b < a` parses to
the empty list (the emission loop runs zero times), and the line parser
then silently skips such an occurrence, yielding no time slots. -/
theorem claim_C9 :
    (∀ a b : Nat, b < a →
      parseTimeSlots ("第" ++ toString a ++ "-" ++ toString b ++ "节") = [])
    ∧ parseTimeSlots "第6-5节" = []
    ∧ (parseTimeLine "星期一第6-5节").timeSlots = [] := by
  refine ⟨?_, by decide, by decide⟩
  intro a b hba
  rw [parseTimeSlots_dash]
  rw [show periodRange a b = [] from by
    unfold periodRange
    rw [show b + 1 - a = 0 from by omega]
    rfl]
  rfl

/-- Witness for claim C9 at a concrete input. -/
theorem claim_C9_witness :
    5 < 6 ∧ parseTimeSlots ("第" ++ toString 6 ++ "-" ++ toString 5 ++ "节") = [] :=
  ⟨by decide, claim_C9.1 6 5 (by decide)⟩
